import Mathlib

/-!
Verification development for the missing-value timeout/alerting engine
(`MissingMatchPathValueDetector` in
`aminer/analysis/MissingMatchPathValueDetector.py`).

The shallow embedding below translates the detector state and its operations
directly from the Python source:

* `DInfo` is one tracking record `[last_seen, interval, suppress_until, source_path]`
  (fields `d0 ... d3`, named after the list indices used by the source).
* `DState` holds `expected_values_dict` (`reg`, an insertion-ordered association
  list, matching Python dict iteration order), `next_check_timestamp`
  (`nextCheck`), `last_seen_timestamp` (`lastSeenTs`), and the learning fields.
* Timestamps are modeled as `Int` (log-atom times; the source's `int(...)` cast
  in `check_timeouts` is the identity on integral timestamps).
* Byte values that fail to decode under the configured encoding are modeled by
  a `decode` function returning `Option`; the source has no exception handler
  in `get_channel_key`, so a decoding failure propagates as `Except.error`.
* The `for`-loop of `check_timeouts` with its `break` statement is modeled by
  `scanLoop`, which returns the updated entries, the updated watermark, the
  outgoing batch (`missing_value_list`) and a flag recording whether the loop
  exited early via `break`.
-/

/-- One tracking record of `expected_values_dict`: the source stores
`[last_seen, interval, suppress_until, source_path]` as indices 0..3. -/
structure DInfo where
  d0 : Int
  d1 : Int
  d2 : Int
  d3 : String
  deriving DecidableEq, Repr

/-- One entry of `missing_value_list`: the source appends
`[detector_info[3], value, value_overdue_time, detector_info[1]]`. -/
structure BatchItem where
  path : String
  value : String
  overdue : Int
  interval : Int
  deriving DecidableEq, Repr

/-- Mutable detector state: `expected_values_dict`, `next_check_timestamp`,
`last_seen_timestamp`, `learn_mode`, `stop_learning_timestamp`,
`stop_learning_no_anomaly_time`. -/
structure DState where
  reg : List (String × DInfo)
  nextCheck : Int
  lastSeenTs : Int
  learnMode : Bool
  stopLearnTs : Option Int
  stopLearnNoAnom : Option Int
  deriving DecidableEq, Repr

/-- Detector configuration: `target_path_list`, `combine_values`,
`default_interval`, `realert_interval` and the configured text decoder
(`AminerConfig.ENCODING` applied via `bytes.decode`, which fails on
undecodable byte sequences). -/
structure Config where
  targetPaths : List String
  combineValues : Bool
  defaultInterval : Int
  realertInterval : Int
  decode : List Nat → Option String

/-- A matched value from the parser: either already text or a byte sequence
that must be decoded. -/
inductive MVal where
  | s (v : String)
  | b (v : List Nat)
  deriving DecidableEq, Repr

/-- The match dictionary of a parsed log atom, restricted to what
`get_channel_key` reads: path, list of match objects under that path. -/
abbrev MatchDict := List (String × List MVal)

/-- Lookup in the match dictionary (`get_match_dictionary().get(path)`). -/
def mdGet : MatchDict → String → Option (List MVal)
  | [], _ => none
  | (p, ms) :: r, path => if p = path then some ms else mdGet r path

/-- Python dict lookup on the registry (`expected_values_dict.get(value)`). -/
def dictGet : List (String × DInfo) → String → Option DInfo
  | [], _ => none
  | (k, v) :: r, key => if k = key then some v else dictGet r key

/-- Python dict assignment on the registry: update in place when the key is
present (dict order preserved), append otherwise. -/
def dictSet : List (String × DInfo) → String → DInfo → List (String × DInfo)
  | [], key, nv => [(key, nv)]
  | (k, v) :: r, key, nv => if k = key then (key, nv) :: r else (k, v) :: dictSet r key nv

/-- Python `del` on the registry. -/
def dictDel : List (String × DInfo) → String → List (String × DInfo)
  | [], _ => []
  | (k, v) :: r, key => if k = key then r else (k, v) :: dictDel r key

/-- The single-quote character used by Python `str` on a list of strings. -/
def pyQuote : String := String.singleton (Char.ofNat 39)

/-- Python `str` applied to a list of strings (as in
`value_list = str(value_list)` of `get_channel_key` and
`str(self.target_path_list)` of the persistence reload filter). -/
def pyStr (xs : List String) : String :=
  "[" ++ String.intercalate ", " (xs.map (fun x => pyQuote ++ x ++ pyQuote)) ++ "]"

/-- Decode the match objects found under one path: text values pass through
`str` unchanged, byte values go through the configured decoder and a decoding
failure raises (`get_channel_key` lines 158-163 have no handler). -/
def decodeVals (dec : List Nat → Option String) : List MVal → Except Unit (List String)
  | [] => .ok []
  | .s v :: r =>
    match decodeVals dec r with
    | .error e => .error e
    | .ok l => .ok (v :: l)
  | .b bs :: r =>
    match dec bs with
    | none => .error ()
    | some sv =>
      match decodeVals dec r with
      | .error e => .error e
      | .ok l => .ok (sv :: l)

/-- The path loop of `get_channel_key`: walk `target_path_list` in order,
return `none` in combined mode as soon as a path is absent, skip absent paths
otherwise, and accumulate `(path, value)` pairs for every match found. -/
def channelKeyGo (cfg : Config) (rec : MatchDict) :
    List String → Except Unit (Option (List String × List String))
  | [] => .ok (some ([], []))
  | p :: rest =>
    match mdGet rec p with
    | none =>
      if cfg.combineValues then .ok none else channelKeyGo cfg rec rest
    | some ms =>
      match decodeVals cfg.decode ms with
      | .error e => .error e
      | .ok vs =>
        match channelKeyGo cfg rec rest with
        | .error e => .error e
        | .ok none => .ok none
        | .ok (some (ps, vl)) => .ok (some (List.replicate vs.length p ++ ps, vs ++ vl))

/-- `get_channel_key` of `MissingMatchPathValueDetector`: per-value mode
returns the accumulated `(path_list, value_list)`; combined mode serializes
both lists with Python `str`, producing one composite key. -/
def getChannelKey (cfg : Config) (rec : MatchDict) :
    Except Unit (Option (List String × List String)) :=
  match channelKeyGo cfg rec cfg.targetPaths with
  | .error e => .error e
  | .ok none => .ok none
  | .ok (some (ps, vs)) =>
    if cfg.combineValues then .ok (some ([pyStr ps], [pyStr vs])) else .ok (some (ps, vs))

/-- `get_channel_key` of `MissingMatchPathListValueDetector`: first present
target path wins; a byte value failing to decode raises. -/
def getChannelKeyList (cfg : Config) (rec : MatchDict) :
    Except Unit (Option (String × String)) :=
  match cfg.targetPaths with
  | [] => .ok none
  | _ => channelKeyListGo cfg rec cfg.targetPaths
where
  channelKeyListGo (cfg : Config) (rec : MatchDict) :
      List String → Except Unit (Option (String × String))
    | [] => .ok none
    | p :: rest =>
      match mdGet rec p with
      | none => channelKeyListGo cfg rec rest
      | some ms =>
        match ms with
        | [] => channelKeyListGo cfg rec rest
        | .s v :: _ => .ok (some (p, v))
        | .b bs :: _ =>
          match cfg.decode bs with
          | none => .error ()
          | some sv => .ok (some (p, sv))

/-- `value_overdue_time = int(last_seen_timestamp - detector_info[0] - detector_info[1])`. -/
def overdueTime (L : Int) (d : DInfo) : Int := L - d.d0 - d.d1

/-- The `for value, detector_info in expected_values_dict.items()` loop of
`check_timeouts` (source lines 179-208). Arguments: `L` is the already-updated
`last_seen_timestamp`, `old` the previous `last_seen_timestamp`, `R` the
`realert_interval`. Returns the updated entries, the updated
`next_check_timestamp`, the collected `missing_value_list`, and whether the
loop exited through the `break` of line 193. -/
def scanLoop (L old R : Int) :
    List (String × DInfo) → Int → List (String × DInfo) × Int × List BatchItem × Bool
  | [], w => ([], w, [], false)
  | (k, d) :: rest, w =>
    if d.d2 ≠ 0 ∧ 0 < d.d2 - L then
      -- already alerted but not ready for realerting yet: fold the deadline
      -- into the watermark and continue
      let r := scanLoop L old R rest (min w d.d2)
      ((k, d) :: r.1, r.2.1, r.2.2.1, r.2.2.2)
    else if d.d2 = 0 ∧ overdueTime L d < 0 then
      -- not yet due: lower the watermark towards this entry's due time; the
      -- source breaks out of the whole loop when the watermark was lowered
      if min w (L - overdueTime L d) < w ∨ min w (L - overdueTime L d) < d.d2 then
        ((k, d) :: rest, min w (L - overdueTime L d), [], true)
      else
        let r := scanLoop L old R rest (min w (L - overdueTime L d))
        ((k, d) :: r.1, r.2.1, r.2.2.1, r.2.2.2)
    else if 0 < overdueTime L d then
      -- alertable: append to the batch and set the next alerting time
      let r := scanLoop L old R rest w
      ((k, { d with d2 := L + R }) :: r.1, r.2.1,
        ⟨d.d3, k, overdueTime L d, d.d1⟩ :: r.2.2.1, r.2.2.2)
    else if d.d1 < L - d.d0 then
      -- the source's burst-arrival workaround (lines 203-208); over integral
      -- timestamps this condition is equivalent to `0 < overdueTime L d` and
      -- the branch is unreachable, but it is kept for fidelity
      let r := scanLoop L old R rest w
      ((k, { d with d2 := L + R }) :: r.1, r.2.1,
        ⟨d.d3, k, L - old - d.d1, d.d1⟩ :: r.2.2.1, r.2.2.2)
    else
      let r := scanLoop L old R rest w
      ((k, d) :: r.1, r.2.1, r.2.2.1, r.2.2.2)

/-- `check_timeouts` (source lines 170-252): update `last_seen_timestamp`,
and when it passed the watermark run a full scan, resetting a zero watermark
to `last_seen_timestamp + realert_interval` first. Returns the new state and
the batch (`missing_value_list`) of the scan, which is emitted as one event
when non-empty. -/
def checkTimeouts (cfg : Config) (s : DState) (t : Int) : DState × List BatchItem :=
  let L := max s.lastSeenTs t
  if s.nextCheck < L then
    let w0 := if s.nextCheck = 0 then L + cfg.realertInterval else s.nextCheck
    let r := scanLoop L s.lastSeenTs cfg.realertInterval s.reg w0
    ({ s with reg := r.1, nextCheck := r.2.1, lastSeenTs := L }, r.2.2.1)
  else
    ({ s with lastSeenTs := L }, [])

/-- The learning loop of `receive_atom` (source lines 116-125): register every
unknown value while learning is enabled, lower the watermark to its due time,
and re-arm the no-anomaly learning cutoff. `wall` stands for `time.time()`. -/
def learnLoop (cfg : Config) (t wall : Int) :
    List (String × String) → DState → DState
  | [], s => s
  | (p, v) :: rest, s =>
    match dictGet s.reg v with
    | some _ => learnLoop cfg t wall rest s
    | none =>
      if s.learnMode then
        learnLoop cfg t wall rest
          { s with
            reg := dictSet s.reg v ⟨t, cfg.defaultInterval, 0, p⟩,
            nextCheck := min s.nextCheck (t + cfg.defaultInterval),
            stopLearnTs :=
              if s.stopLearnTs ≠ none ∧ s.stopLearnNoAnom ≠ none then
                some (wall + s.stopLearnNoAnom.getD 0)
              else s.stopLearnTs }
      else learnLoop cfg t wall rest s

/-- The update loop after `check_timeouts` (source lines 129-139): set
`last_seen` of every matched value to the record timestamp, clear an expired
suppression deadline, and lower the watermark for entries that were in the
alerted state. -/
def postLoop (t : Int) : List (String × String) → DState → DState
  | [], s => s
  | (_, v) :: rest, s =>
    match dictGet s.reg v with
    | none => postLoop t rest s
    | some d =>
      postLoop t rest
        { s with
          reg := dictSet s.reg v
            { d with d0 := t, d2 := if d.d2 ≠ 0 ∧ t ≥ d.d2 then 0 else d.d2 },
          nextCheck := if d.d2 ≠ 0 then min s.nextCheck (t + d.d1) else s.nextCheck }

/-- The learning cutoff check at the top of `receive_atom` (source lines
101-104): switch `learn_mode` off once the record time passed the configured
cutoff. -/
def stopFlip (s0 : DState) (atomTime : Int) : DState :=
  match s0.stopLearnTs with
  | some st => if s0.learnMode ∧ st < atomTime then { s0 with learnMode := false } else s0
  | none => s0

/-- The body of `receive_atom` for a record that produced a channel key:
learning loop, timeout scan, last-seen update loop. Returns the final state
and the emitted events (one event carrying the whole batch when the scan
produced one). -/
def processKeyed (cfg : Config) (s : DState) (pv : List (String × String))
    (t wall : Int) : DState × List (List BatchItem) :=
  let s1 := learnLoop cfg t wall pv s
  let r := checkTimeouts cfg s1 t
  (postLoop t pv r.1, if r.2 = [] then [] else [r.2])

/-- `receive_atom` (source lines 92-141): learning cutoff check, channel-key
extraction (whose decoding failure propagates), learning, timeout scan, and
the last-seen update loop. Returns the new state, the handled flag, and the
list of emitted events (each event carries the whole batch of one scan). -/
def receiveAtom (cfg : Config) (s0 : DState) (rec : MatchDict)
    (tsOpt : Option Int) (wall : Int) :
    Except Unit (DState × Bool × List (List BatchItem)) :=
  let s := stopFlip s0 (tsOpt.getD wall)
  match getChannelKey cfg rec with
  | .error e => .error e
  | .ok none => .ok (s, false, [])
  | .ok (some (paths, values)) =>
    if paths = [] ∧ values = [] then .ok (s, false, [])
    else
      let r := processKeyed cfg s (paths.zip values) (tsOpt.getD wall) wall
      .ok (r.1, true, r.2)

/-- `set_check_value` (source lines 259-262). -/
def setCheckValue (s : DState) (v : String) (interval : Int) (p : String) : DState :=
  { s with reg := dictSet s.reg v ⟨s.lastSeenTs, interval, 0, p⟩, nextCheck := 0 }

/-- `remove_check_value` (source lines 264-267): Python `del` raises
`KeyError` when the key is absent. -/
def removeCheckValue (s : DState) (v : String) : Except Unit DState :=
  match dictGet s.reg v with
  | none => .error ()
  | some _ => .ok { s with reg := dictDel s.reg v }

/-- The persistence reload loop of `__init__` (source lines 76-88): drop
entries whose `source_path` does not match the configured target paths, and
overwrite interval and suppression deadline when the stored interval differs
from the configured default. `do_persist` stores the registry verbatim, so a
store/load round trip is `loadPersistence` applied to the live registry. -/
def loadPersistence (tp : Option (List String)) (combine : Bool) (defInt : Int) :
    List (String × DInfo) → List (String × DInfo)
  | [] => []
  | (k, v) :: r =>
    let skip : Bool :=
      match tp with
      | some tpl => (!(tpl.contains v.d3) && !combine) || (!(v.d3 = pyStr tpl : Bool) && combine)
      | none => false
    if skip then loadPersistence tp combine defInt r
    else
      let v' := if v.d1 ≠ defInt then { v with d1 := defInt, d2 := v.d0 + defInt } else v
      (k, v') :: loadPersistence tp combine defInt r

/-- One ingestion call: a parsed record, its optional timestamp, and the
wall-clock time (used when the record carries no timestamp and for the
learning cutoff re-arm). -/
structure Call where
  record : MatchDict
  ts : Option Int
  wall : Int

/-- The effective record timestamp of a call (`get_timestamp()`, defaulting
to `time.time()`). -/
def tOf (c : Call) : Int := c.ts.getD c.wall

/-- Run a sequence of `receive_atom` calls, collecting all emitted events; an
uncaught exception aborts the run. -/
def runSeq (cfg : Config) : List Call → DState → Except Unit (DState × List (List BatchItem))
  | [], s => .ok (s, [])
  | c :: r, s =>
    match receiveAtom cfg s c.record c.ts c.wall with
    | .error e => .error e
    | .ok (s', _, evs) =>
      match runSeq cfg r s' with
      | .error e => .error e
      | .ok (s'', evs') => .ok (s'', evs ++ evs')

/-- A freshly constructed detector with empty persistence: empty registry,
zero watermark and zero last-seen timestamp. -/
def freshState (learn : Bool) : DState :=
  ⟨[], 0, 0, learn, none, none⟩

/-- Number of batch items naming key `k` across a list of events. -/
def keyCount (evs : List (List BatchItem)) (k : String) : Nat :=
  (evs.flatten.map BatchItem.value).count k

/-- How one registry entry can change across the update loop: unchanged, or
`last_seen` set to the record timestamp with the suppression deadline kept or
cleared. -/
def postRel (t : Int) (d' d : DInfo) : Prop :=
  d' = d ∨ (d'.d0 = t ∧ d'.d1 = d.d1 ∧ d'.d3 = d.d3 ∧ (d'.d2 = d.d2 ∨ d'.d2 = 0))

/-- Concrete configuration used by the executable scenarios below: a single
target path `p`, per-value mode, `default_interval = 100`,
`realert_interval = 1000`; the decoder is never consulted because the test
records carry text values only. -/
def cfgA : Config := ⟨["p"], false, 100, 1000, fun _ => none⟩

/-- Concrete configuration with a short `default_interval = 10` and
`realert_interval = 1000`. -/
def cfgB : Config := ⟨["p"], false, 10, 1000, fun _ => none⟩

/-- A record with a single text value under path `p`. -/
def recA (v : String) : MatchDict := [("p", [MVal.s v])]

/-- An ingestion call of `recA v` at record time `t`. -/
def callA (v : String) (t : Int) : Call := ⟨recA v, some t, 0⟩

/-- A decoder that fails on the byte sequence `[255]`, standing for a byte
value that is invalid under the configured text encoding. -/
def badDec : List Nat → Option String := fun bs => if bs = [255] then none else some "x"

/-- Per-value configuration whose decoder fails on `[255]`. -/
def cfgBad : Config := ⟨["p"], false, 100, 1000, badDec⟩

/-- Combined-mode configuration over two target paths whose decoder fails on
`[255]`. -/
def cfgComb : Config := ⟨["p1", "p2"], true, 100, 1000, badDec⟩

/-- The reload filter of `__init__` keeps an entry: its `source_path` matches
the configured target paths (membership in per-value mode, serialized-list
equality in combined mode); with no configured path list everything is kept. -/
def loadKeep (tp : Option (List String)) (combine : Bool) (e : String × DInfo) : Prop :=
  match tp with
  | some tpl => (combine = true → e.2.d3 = pyStr tpl) ∧ (combine = false → e.2.d3 ∈ tpl)
  | none => True

/-- Invariant of detector states reachable from a fresh detector by
`receive_atom` calls with nonnegative record timestamps (positive configured
intervals assumed): nonnegative clock fields, unique registry keys, entries
learned with the default interval and nonnegative fields, the zero watermark
only before the first scan (when everything was seen at time 0 and nothing is
suppressed), the watermark within one `max(default_interval,
realert_interval)` of the newest record, and the watermark below every
suppression deadline of an alerted entry. -/
def StateInv (cfg : Config) (s : DState) : Prop :=
  0 ≤ s.lastSeenTs ∧ 0 ≤ s.nextCheck ∧
  (s.reg.map Prod.fst).Nodup ∧
  (∀ e ∈ s.reg, e.2.d1 = cfg.defaultInterval ∧ 0 ≤ e.2.d0 ∧ 0 ≤ e.2.d2) ∧
  (s.nextCheck = 0 → s.lastSeenTs = 0 ∧ ∀ e ∈ s.reg, e.2.d0 = 0 ∧ e.2.d2 = 0) ∧
  s.nextCheck ≤ s.lastSeenTs + max cfg.defaultInterval cfg.realertInterval ∧
  (∀ e ∈ s.reg, e.2.d2 ≠ 0 → s.nextCheck ≤ e.2.d2)

/-- All record timestamps of a call list are nonnegative. -/
def CallsNonneg (calls : List Call) : Prop := ∀ c ∈ calls, 0 ≤ tOf c

/-- Facts holding of the state right after `check_timeouts` inside one
`receive_atom` call, before the last-seen update loop runs; `L` is the updated
`last_seen_timestamp` (the maximum of the previous one and the record time).
They mirror `StateInv` with the updated last-seen value substituted. -/
def MidInv (cfg : Config) (L : Int) (s : DState) : Prop :=
  s.lastSeenTs = L ∧ 0 ≤ s.nextCheck ∧
  (s.reg.map Prod.fst).Nodup ∧
  (∀ e ∈ s.reg, e.2.d1 = cfg.defaultInterval ∧ 0 ≤ e.2.d0 ∧ 0 ≤ e.2.d2) ∧
  (s.nextCheck = 0 → L = 0 ∧ ∀ e ∈ s.reg, e.2.d0 = 0 ∧ e.2.d2 = 0) ∧
  s.nextCheck ≤ L + max cfg.defaultInterval cfg.realertInterval ∧
  (∀ e ∈ s.reg, e.2.d2 ≠ 0 → s.nextCheck ≤ e.2.d2)

/-! ### Lemmas about the registry dictionary -/

theorem dictGet_mem {l : List (String × DInfo)} {k : String} {d : DInfo}
    (h : dictGet l k = some d) : (k, d) ∈ l := by
  induction l with
  | nil => simp [dictGet] at h
  | cons e r ih =>
    by_cases hk : e.1 = k
    · rw [show e = (e.1, e.2) from rfl] at h ⊢
      simp only [dictGet, if_pos hk] at h
      rw [hk]
      simp [← Option.some_inj.mp h]
    · rw [show e = (e.1, e.2) from rfl] at h
      simp only [dictGet, if_neg hk] at h
      exact List.mem_cons_of_mem _ (ih h)

theorem dictGet_isSome_iff {l : List (String × DInfo)} {k : String} :
    (dictGet l k).isSome ↔ k ∈ l.map Prod.fst := by
  induction l with
  | nil => simp [dictGet]
  | cons e r ih =>
    by_cases hk : e.1 = k
    · rw [show e = (e.1, e.2) from rfl]
      simp [dictGet, hk]
    · rw [show e = (e.1, e.2) from rfl]
      simp only [dictGet, if_neg hk, List.map_cons, List.mem_cons]
      rw [ih]
      constructor
      · exact fun h => Or.inr h
      · rintro (h | h)
        · exact absurd h.symm hk
        · exact h

theorem dictGet_eq_none_iff {l : List (String × DInfo)} {k : String} :
    dictGet l k = none ↔ k ∉ l.map Prod.fst := by
  rw [← dictGet_isSome_iff]
  cases dictGet l k <;> simp

theorem dictGet_of_mem_nodup {l : List (String × DInfo)} {k : String} {d : DInfo}
    (hnd : (l.map Prod.fst).Nodup) (h : (k, d) ∈ l) : dictGet l k = some d := by
  induction l with
  | nil => simp at h
  | cons e r ih =>
    simp only [List.map_cons, List.nodup_cons] at hnd
    rcases List.mem_cons.mp h with h1 | h1
    · rw [← h1]
      simp [dictGet]
    · rw [show e = (e.1, e.2) from rfl]
      have hne : e.1 ≠ k := by
        intro he
        exact hnd.1 (he ▸ (List.mem_map.mpr ⟨(k, d), h1, rfl⟩))
      simp only [dictGet, if_neg hne]
      exact ih hnd.2 h1

theorem dictGet_set_self (l : List (String × DInfo)) (k : String) (v : DInfo) :
    dictGet (dictSet l k v) k = some v := by
  induction l with
  | nil => simp [dictSet, dictGet]
  | cons e r ih =>
    rw [show e = (e.1, e.2) from rfl]
    by_cases hk : e.1 = k
    · simp [dictSet, hk, dictGet]
    · simp [dictSet, hk, dictGet, ih]

theorem dictGet_set_ne (l : List (String × DInfo)) (k k' : String) (v : DInfo)
    (h : k' ≠ k) : dictGet (dictSet l k v) k' = dictGet l k' := by
  induction l with
  | nil => simp [dictSet, dictGet, Ne.symm h]
  | cons e r ih =>
    rw [show e = (e.1, e.2) from rfl]
    by_cases hk : e.1 = k
    · simp [dictSet, hk, dictGet, Ne.symm h, h]
    · by_cases hk' : e.1 = k'
      · simp [dictSet, hk, dictGet, hk', Ne.symm h, h]
      · simp [dictSet, hk, dictGet, hk', ih]

theorem dictSet_of_absent {l : List (String × DInfo)} {k : String} (v : DInfo)
    (h : dictGet l k = none) : dictSet l k v = l ++ [(k, v)] := by
  induction l with
  | nil => simp [dictSet]
  | cons e r ih =>
    rw [show e = (e.1, e.2) from rfl] at h ⊢
    by_cases hk : e.1 = k
    · simp [dictGet, hk] at h
    · simp only [dictGet, if_neg hk] at h
      simp [dictSet, hk, ih h]

theorem dictSet_keys_of_present {l : List (String × DInfo)} {k : String} (v : DInfo)
    (h : (dictGet l k).isSome) : (dictSet l k v).map Prod.fst = l.map Prod.fst := by
  induction l with
  | nil => simp [dictGet] at h
  | cons e r ih =>
    rw [show e = (e.1, e.2) from rfl] at h ⊢
    by_cases hk : e.1 = k
    · simp [dictSet, hk]
    · simp only [dictGet, if_neg hk] at h
      simp [dictSet, hk, ih h]

theorem dictSet_mem {l : List (String × DInfo)} {k : String} {v : DInfo} {e : String × DInfo}
    (h : e ∈ dictSet l k v) : e = (k, v) ∨ e ∈ l := by
  induction l with
  | nil => simp [dictSet] at h; simp [h]
  | cons e' r ih =>
    rw [show e' = (e'.1, e'.2) from rfl] at h ⊢
    by_cases hk : e'.1 = k
    · simp only [dictSet, if_pos hk, List.mem_cons] at h
      rcases h with h | h
      · exact Or.inl h
      · exact Or.inr (List.mem_cons_of_mem _ h)
    · simp only [dictSet, if_neg hk, List.mem_cons] at h
      rcases h with h | h
      · exact Or.inr (List.mem_cons.mpr (Or.inl h))
      · rcases ih h with h1 | h1
        · exact Or.inl h1
        · exact Or.inr (List.mem_cons_of_mem _ h1)

theorem dictDel_get_ne (l : List (String × DInfo)) (k k' : String) (h : k' ≠ k) :
    dictGet (dictDel l k) k' = dictGet l k' := by
  induction l with
  | nil => simp [dictDel]
  | cons e r ih =>
    rw [show e = (e.1, e.2) from rfl]
    by_cases hk : e.1 = k
    · have hne : e.1 ≠ k' := fun he => h (he.symm.trans hk)
      simp [dictDel, hk, dictGet, hne, Ne.symm h, h]
    · by_cases hk' : e.1 = k'
      · simp [dictDel, hk, dictGet, hk', Ne.symm h, h]
      · simp [dictDel, hk, dictGet, hk', ih]

theorem dictDel_get_self {l : List (String × DInfo)} {k : String}
    (hnd : (l.map Prod.fst).Nodup) : dictGet (dictDel l k) k = none := by
  induction l with
  | nil => simp [dictDel, dictGet]
  | cons e r ih =>
    simp only [List.map_cons, List.nodup_cons] at hnd
    rw [show e = (e.1, e.2) from rfl]
    by_cases hk : e.1 = k
    · simp only [dictDel, if_pos hk]
      rw [dictGet_eq_none_iff]
      exact hk ▸ hnd.1
    · simp [dictDel, hk, dictGet, ih hnd.2]

theorem dictGet_append_left {l l' : List (String × DInfo)} {k : String} {d : DInfo}
    (h : dictGet l k = some d) : dictGet (l ++ l') k = some d := by
  induction l with
  | nil => simp [dictGet] at h
  | cons e r ih =>
    rw [show e = (e.1, e.2) from rfl] at h ⊢
    by_cases hk : e.1 = k
    · simp only [dictGet, if_pos hk] at h
      simp [dictGet, hk, h]
    · simp only [dictGet, if_neg hk] at h
      simp [dictGet, hk, ih h]

theorem dictGet_append_right {l l' : List (String × DInfo)} {k : String}
    (h : dictGet l k = none) : dictGet (l ++ l') k = dictGet l' k := by
  induction l with
  | nil => simp
  | cons e r ih =>
    rw [show e = (e.1, e.2) from rfl] at h ⊢
    by_cases hk : e.1 = k
    · simp [dictGet, hk] at h
    · simp only [dictGet, if_neg hk] at h
      simp [dictGet, hk, ih h]

/-! ### Lemmas about the scan loop of `check_timeouts` -/

theorem scanLoop_w_le (L old R : Int) (l : List (String × DInfo)) (w : Int) :
    (scanLoop L old R l w).2.1 ≤ w := by
  induction l generalizing w with
  | nil => simp [scanLoop]
  | cons e r ih =>
    rw [show e = (e.1, e.2) from rfl]
    simp only [scanLoop]
    split_ifs with h1 h2 h3
    · exact le_trans (ih _) (min_le_left _ _)
    · exact min_le_left _ _
    · exact le_trans (ih _) (min_le_left _ _)
    all_goals exact ih w

theorem scanLoop_keys (L old R : Int) (l : List (String × DInfo)) (w : Int) :
    (scanLoop L old R l w).1.map Prod.fst = l.map Prod.fst := by
  induction l generalizing w with
  | nil => simp [scanLoop]
  | cons e r ih =>
    rw [show e = (e.1, e.2) from rfl]
    simp only [scanLoop]
    split_ifs with h1 h2 h3
    all_goals simp [ih]

theorem scanLoop_entries (L old R : Int) (l : List (String × DInfo)) (w : Int) :
    List.Forall₂
      (fun a b => a.1 = b.1 ∧ (b.2 = a.2 ∨ b.2 = ⟨a.2.d0, a.2.d1, L + R, a.2.d3⟩))
      l (scanLoop L old R l w).1 := by
  induction l generalizing w with
  | nil => simp [scanLoop]
  | cons e r ih =>
    rw [show e = (e.1, e.2) from rfl]
    simp only [scanLoop]
    split_ifs with h1 h2 h3
    · exact List.Forall₂.cons ⟨rfl, Or.inl rfl⟩ (ih _)
    · refine List.Forall₂.cons ⟨rfl, Or.inl rfl⟩ ?_
      exact (List.forall₂_same).mpr (fun x _ => ⟨rfl, Or.inl rfl⟩)
    · exact List.Forall₂.cons ⟨rfl, Or.inl rfl⟩ (ih _)
    · exact List.Forall₂.cons ⟨rfl, Or.inr rfl⟩ (ih _)
    · exact List.Forall₂.cons ⟨rfl, Or.inr rfl⟩ (ih _)
    · exact List.Forall₂.cons ⟨rfl, Or.inl rfl⟩ (ih _)

theorem dictGet_of_forall₂ {P : DInfo → DInfo → Prop} {l l' : List (String × DInfo)}
    (h : List.Forall₂ (fun a b => a.1 = b.1 ∧ P a.2 b.2) l l') {k : String} {d : DInfo}
    (hg : dictGet l k = some d) : ∃ d', dictGet l' k = some d' ∧ P d d' := by
  induction h with
  | nil => simp [dictGet] at hg
  | cons hab hr ih =>
    rename_i a b l1 l2
    rw [show a = (a.1, a.2) from rfl] at hg
    rw [show b = (b.1, b.2) from rfl]
    by_cases hk : a.1 = k
    · simp only [dictGet, if_pos hk] at hg
      refine ⟨b.2, ?_, Option.some_inj.mp hg ▸ hab.2⟩
      simp [dictGet, hab.1 ▸ hk]
    · simp only [dictGet, if_neg hk] at hg
      have hk' : b.1 ≠ k := hab.1 ▸ hk
      simpa [dictGet, hk'] using ih hg

theorem dictGet_of_forall₂_rev {P : DInfo → DInfo → Prop} {l l' : List (String × DInfo)}
    (h : List.Forall₂ (fun a b => a.1 = b.1 ∧ P a.2 b.2) l l') {k : String} {d' : DInfo}
    (hg : dictGet l' k = some d') : ∃ d, dictGet l k = some d ∧ P d d' := by
  induction h with
  | nil => simp [dictGet] at hg
  | cons hab hr ih =>
    rename_i a b l1 l2
    rw [show b = (b.1, b.2) from rfl] at hg
    rw [show a = (a.1, a.2) from rfl]
    by_cases hk : b.1 = k
    · simp only [dictGet, if_pos hk] at hg
      refine ⟨a.2, ?_, Option.some_inj.mp hg ▸ hab.2⟩
      simp [dictGet, hab.1.symm ▸ hk]
    · simp only [dictGet, if_neg hk] at hg
      have hk' : a.1 ≠ k := fun he => hk (hab.1 ▸ he)
      simpa [dictGet, hk'] using ih hg

theorem scanLoop_w_pos (L old R : Int) (l : List (String × DInfo)) (w : Int)
    (hw : 0 < w) (hl : ∀ e ∈ l, 0 < e.2.d1 ∧ 0 ≤ e.2.d0 ∧ 0 ≤ e.2.d2) :
    0 < (scanLoop L old R l w).2.1 := by
  induction l generalizing w with
  | nil => simpa [scanLoop] using hw
  | cons e r ih =>
    have he := hl e (List.mem_cons_self e r)
    have hr : ∀ x ∈ r, 0 < x.2.d1 ∧ 0 ≤ x.2.d0 ∧ 0 ≤ x.2.d2 :=
      fun x hx => hl x (List.mem_cons_of_mem e hx)
    rw [show e = (e.1, e.2) from rfl]
    simp only [scanLoop]
    split_ifs with h1 h2 h3
    · have : 0 < e.2.d2 := lt_of_le_of_ne he.2.2 (Ne.symm h1.1)
      exact ih _ (lt_min hw this) hr
    · have : 0 < L - overdueTime L e.2 := by
        have : L - overdueTime L e.2 = e.2.d0 + e.2.d1 := by
          simp [overdueTime]; ring
        rw [this]
        exact add_pos_of_nonneg_of_pos he.2.1 he.1
      exact lt_min hw this
    · have : 0 < L - overdueTime L e.2 := by
        have : L - overdueTime L e.2 = e.2.d0 + e.2.d1 := by
          simp [overdueTime]; ring
        rw [this]
        exact add_pos_of_nonneg_of_pos he.2.1 he.1
      exact ih _ (lt_min hw this) hr
    all_goals exact ih w hw hr

theorem scanLoop_batch_keys (L old R : Int) (l : List (String × DInfo)) (w : Int) :
    ∀ it ∈ (scanLoop L old R l w).2.2.1, it.value ∈ l.map Prod.fst := by
  induction l generalizing w with
  | nil => simp [scanLoop]
  | cons e r ih =>
    rw [show e = (e.1, e.2) from rfl]
    simp only [scanLoop]
    split_ifs with h1 h2 h3
    · intro it hit
      exact List.mem_cons_of_mem _ (ih _ it hit)
    · simp
    · intro it hit
      exact List.mem_cons_of_mem _ (ih _ it hit)
    · intro it hit
      rcases List.mem_cons.mp hit with h | h
      · simp [h]
      · exact List.mem_cons_of_mem _ (ih _ it h)
    · intro it hit
      rcases List.mem_cons.mp hit with h | h
      · simp [h]
      · exact List.mem_cons_of_mem _ (ih _ it h)
    · intro it hit
      exact List.mem_cons_of_mem _ (ih _ it hit)

theorem scanLoop_min_eq {L w : Int} {d : DInfo} (_hw0 : 0 ≤ w) (hwL : w < L)
    (hod : overdueTime L d < 0) : min w (L - overdueTime L d) = w :=
  min_eq_left (le_of_lt (lt_of_lt_of_le hwL (by linarith)))

theorem scanLoop_mem_batch {L old R : Int} {l : List (String × DInfo)} {w : Int}
    {k : String} {d : DInfo}
    (hw0 : 0 ≤ w) (hwL : w < L) (hd2 : ∀ e ∈ l, 0 ≤ e.2.d2)
    (hk : (k, d) ∈ l) (h2 : d.d2 = 0) (hod : 0 < overdueTime L d) :
    (⟨d.d3, k, overdueTime L d, d.d1⟩ : BatchItem) ∈ (scanLoop L old R l w).2.2.1 := by
  induction l generalizing w with
  | nil => simp at hk
  | cons e r ih =>
    obtain ⟨ek, ed⟩ := e
    have hdr : ∀ x ∈ r, 0 ≤ x.2.d2 := fun x hx => hd2 x (List.mem_cons_of_mem _ hx)
    rcases List.mem_cons.mp hk with hh | hh
    · rw [Prod.mk.injEq] at hh
      obtain ⟨rfl, rfl⟩ := hh
      simp only [scanLoop]
      split_ifs with c1 c2 c3
      · exact absurd h2 c1.1
      · exact absurd hod (not_lt.mpr (le_of_lt c2.2))
      · exact absurd hod (not_lt.mpr (le_of_lt c2.2))
      · exact List.mem_cons_self _ _
    · simp only [scanLoop]
      split_ifs with c1 c2 c3 c4 c5
      · have hpos : 0 ≤ min w ed.d2 := le_min hw0 (hd2 _ (List.mem_cons_self _ r))
        have hlt : min w ed.d2 < L := lt_of_le_of_lt (min_le_left _ _) hwL
        exact ih hpos hlt hdr hh
      · -- the break cannot fire when the watermark is below the scan time
        rw [scanLoop_min_eq hw0 hwL c2.2] at c3
        rcases c3 with hx | hx
        · exact absurd hx (lt_irrefl w)
        · rw [c2.1] at hx
          exact absurd hx (not_lt.mpr hw0)
      · rw [scanLoop_min_eq hw0 hwL c2.2]
        exact ih hw0 hwL hdr hh
      · exact List.mem_cons_of_mem _ (ih hw0 hwL hdr hh)
      · exact List.mem_cons_of_mem _ (ih hw0 hwL hdr hh)
      · exact ih hw0 hwL hdr hh

theorem scanLoop_count (L old R : Int) (l : List (String × DInfo)) (w : Int) (k : String) :
    ((scanLoop L old R l w).2.2.1.map BatchItem.value).count k ≤ (l.map Prod.fst).count k := by
  induction l generalizing w with
  | nil => simp [scanLoop]
  | cons e r ih =>
    rw [show e = (e.1, e.2) from rfl]
    simp only [scanLoop]
    split_ifs with h1 h2 h3
    · simp only [List.map_cons, List.count_cons]
      exact le_trans (ih _) (Nat.le_add_right _ _)
    · simp
    · simp only [List.map_cons, List.count_cons]
      exact le_trans (ih _) (Nat.le_add_right _ _)
    · simp only [List.map_cons, List.count_cons]
      exact Nat.add_le_add (ih _) (le_refl _)
    · simp only [List.map_cons, List.count_cons]
      exact Nat.add_le_add (ih _) (le_refl _)
    · simp only [List.map_cons, List.count_cons]
      exact le_trans (ih _) (Nat.le_add_right _ _)

theorem scanLoop_suppressed {L old R : Int} {l : List (String × DInfo)} {w : Int}
    {k : String} {D : Int} (hD : D ≠ 0) (hLD : L < D)
    (hall : ∀ p ∈ l, p.1 = k → p.2.d2 = D) :
    (∀ it ∈ (scanLoop L old R l w).2.2.1, it.value ≠ k) ∧
    (∀ p ∈ (scanLoop L old R l w).1, p.1 = k → p.2.d2 = D) := by
  induction l generalizing w with
  | nil => simp [scanLoop]
  | cons e r ih =>
    have hre : ∀ p ∈ r, p.1 = k → p.2.d2 = D :=
      fun p hp => hall p (List.mem_cons_of_mem e hp)
    by_cases hek : e.1 = k
    · have he2 : e.2.d2 = D := hall e (List.mem_cons_self e r) hek
      have h1 : e.2.d2 ≠ 0 ∧ 0 < e.2.d2 - L := ⟨he2 ▸ hD, by rw [he2]; linarith⟩
      rw [show e = (e.1, e.2) from rfl]
      simp only [scanLoop, if_pos h1]
      refine ⟨(ih hre (w := min w e.2.d2)).1, ?_⟩
      intro p hp
      rcases List.mem_cons.mp hp with h | h
      · intro _; rw [h]; exact he2
      · exact (ih hre (w := min w e.2.d2)).2 p h
    · rw [show e = (e.1, e.2) from rfl]
      simp only [scanLoop]
      split_ifs with h1 h2 h3
      · refine ⟨(ih hre (w := min w e.2.d2)).1, ?_⟩
        intro p hp
        rcases List.mem_cons.mp hp with h | h
        · intro hpk; rw [h] at hpk; exact absurd hpk hek
        · exact (ih hre (w := min w e.2.d2)).2 p h
      · refine ⟨by simp, ?_⟩
        intro p hp
        rcases List.mem_cons.mp hp with h | h
        · intro hpk; rw [h] at hpk; exact absurd hpk hek
        · exact hre p h
      · refine ⟨(ih hre (w := min w (L - overdueTime L e.2))).1, ?_⟩
        intro p hp
        rcases List.mem_cons.mp hp with h | h
        · intro hpk; rw [h] at hpk; exact absurd hpk hek
        · exact (ih hre (w := min w (L - overdueTime L e.2))).2 p h
      · refine ⟨?_, ?_⟩
        · intro it hit
          rcases List.mem_cons.mp hit with h | h
          · rw [h]; exact hek
          · exact (ih hre (w := w)).1 it h
        · intro p hp
          rcases List.mem_cons.mp hp with h | h
          · intro hpk; rw [h] at hpk; exact absurd hpk hek
          · exact (ih hre (w := w)).2 p h
      · refine ⟨?_, ?_⟩
        · intro it hit
          rcases List.mem_cons.mp hit with h | h
          · rw [h]; exact hek
          · exact (ih hre (w := w)).1 it h
        · intro p hp
          rcases List.mem_cons.mp hp with h | h
          · intro hpk; rw [h] at hpk; exact absurd hpk hek
          · exact (ih hre (w := w)).2 p h
      · refine ⟨(ih hre (w := w)).1, ?_⟩
        intro p hp
        rcases List.mem_cons.mp hp with h | h
        · intro hpk; rw [h] at hpk; exact absurd hpk hek
        · exact (ih hre (w := w)).2 p h

theorem scanLoop_alert_d2 {L old R : Int} {l : List (String × DInfo)} {w : Int}
    (hnd : (l.map Prod.fst).Nodup) :
    ∀ it ∈ (scanLoop L old R l w).2.2.1,
      ∃ d', dictGet (scanLoop L old R l w).1 it.value = some d' ∧ d'.d2 = L + R := by
  induction l generalizing w with
  | nil => simp [scanLoop]
  | cons e r ih =>
    obtain ⟨ek, ed⟩ := e
    simp only [List.map_cons, List.nodup_cons] at hnd
    have hne : ∀ w', ∀ it ∈ (scanLoop L old R r w').2.2.1, it.value ≠ ek := by
      intro w' it hit he
      exact hnd.1 (he ▸ scanLoop_batch_keys L old R r w' it hit)
    simp only [scanLoop]
    split_ifs with c1 c2 c3 c4 c5
    · intro it hit
      obtain ⟨d', hg, hd⟩ := ih hnd.2 (w := min w ed.d2) it hit
      exact ⟨d', by simp [dictGet, hne _ it hit, Ne.symm (hne _ it hit), hg], hd⟩
    · simp
    · intro it hit
      obtain ⟨d', hg, hd⟩ := ih hnd.2 (w := min w (L - overdueTime L ed)) it hit
      exact ⟨d', by simp [dictGet, hne _ it hit, Ne.symm (hne _ it hit), hg], hd⟩
    · intro it hit
      rcases List.mem_cons.mp hit with h | h
      · refine ⟨⟨ed.d0, ed.d1, L + R, ed.d3⟩, ?_, rfl⟩
        rw [h]
        simp [dictGet]
      · obtain ⟨d', hg, hd⟩ := ih hnd.2 (w := w) it h
        exact ⟨d', by simp [dictGet, hne _ it h, Ne.symm (hne _ it h), hg], hd⟩
    · intro it hit
      rcases List.mem_cons.mp hit with h | h
      · refine ⟨⟨ed.d0, ed.d1, L + R, ed.d3⟩, ?_, rfl⟩
        rw [h]
        simp [dictGet]
      · obtain ⟨d', hg, hd⟩ := ih hnd.2 (w := w) it h
        exact ⟨d', by simp [dictGet, hne _ it h, Ne.symm (hne _ it h), hg], hd⟩
    · intro it hit
      obtain ⟨d', hg, hd⟩ := ih hnd.2 (w := w) it hit
      exact ⟨d', by simp [dictGet, hne _ it hit, Ne.symm (hne _ it hit), hg], hd⟩

theorem scanLoop_all_alert {L old R : Int} {l : List (String × DInfo)} {w : Int}
    (h : ∀ e ∈ l, e.2.d2 = 0 ∧ 0 < overdueTime L e.2) :
    scanLoop L old R l w =
      (l.map (fun e => (e.1, { e.2 with d2 := L + R })), w,
       l.map (fun e => (⟨e.2.d3, e.1, overdueTime L e.2, e.2.d1⟩ : BatchItem)), false) := by
  induction l with
  | nil => simp [scanLoop]
  | cons e r ih =>
    obtain ⟨ek, ed⟩ := e
    have he := h _ (List.mem_cons_self _ r)
    have hr := fun x hx => h x (List.mem_cons_of_mem _ hx)
    have h1 : ¬(ed.d2 ≠ 0 ∧ 0 < ed.d2 - L) := by simp at he ⊢; simp [he.1]
    have h2 : ¬(ed.d2 = 0 ∧ overdueTime L ed < 0) := by
      simp at he ⊢
      intro _
      linarith [he.2]
    simp only [scanLoop, if_neg h1, if_neg h2, if_pos he.2]
    simp [ih hr]

theorem scanLoop_append_broke {L old R : Int} {l1 l2 : List (String × DInfo)} {w : Int}
    (h : (scanLoop L old R l1 w).2.2.2 = true) :
    scanLoop L old R (l1 ++ l2) w =
      ((scanLoop L old R l1 w).1 ++ l2, (scanLoop L old R l1 w).2.1,
       (scanLoop L old R l1 w).2.2.1, true) := by
  induction l1 generalizing w with
  | nil => simp [scanLoop] at h
  | cons e r ih =>
    obtain ⟨ek, ed⟩ := e
    simp only [scanLoop, List.cons_append] at h ⊢
    split_ifs at h ⊢ with c1 c2 c3 c4 c5
    · simp only [] at h
      simp [ih h]
    · simp
    · simp only [] at h
      simp [ih h]
    · simp only [] at h
      simp [ih h]
    · simp only [] at h
      simp [ih h]
    · simp only [] at h
      simp [ih h]

theorem scanLoop_append_cont {L old R : Int} {l1 l2 : List (String × DInfo)} {w : Int}
    (h : (scanLoop L old R l1 w).2.2.2 = false) :
    scanLoop L old R (l1 ++ l2) w =
      ((scanLoop L old R l1 w).1 ++ (scanLoop L old R l2 (scanLoop L old R l1 w).2.1).1,
       (scanLoop L old R l2 (scanLoop L old R l1 w).2.1).2.1,
       (scanLoop L old R l1 w).2.2.1 ++ (scanLoop L old R l2 (scanLoop L old R l1 w).2.1).2.2.1,
       (scanLoop L old R l2 (scanLoop L old R l1 w).2.1).2.2.2) := by
  induction l1 generalizing w with
  | nil => simp [scanLoop]
  | cons e r ih =>
    obtain ⟨ek, ed⟩ := e
    simp only [scanLoop, List.cons_append] at h ⊢
    split_ifs at h ⊢ with c1 c2 c3 c4 c5
    all_goals simp only [] at h
    all_goals first
      | exact Bool.noConfusion h
      | simp [List.append_eq, ih h]

/-! ### Lemmas about the learning loop -/

theorem learnLoop_lastSeen (cfg : Config) (t wall : Int) (pv : List (String × String))
    (s : DState) : (learnLoop cfg t wall pv s).lastSeenTs = s.lastSeenTs := by
  induction pv generalizing s with
  | nil => simp [learnLoop]
  | cons e rest ih =>
    obtain ⟨p, v⟩ := e
    simp only [learnLoop]
    cases dictGet s.reg v with
    | some d => exact ih s
    | none =>
      by_cases hl : s.learnMode
      · simp only [if_pos hl]
        rw [ih]
      · simp only [if_neg hl]
        exact ih s

theorem learnLoop_w_le (cfg : Config) (t wall : Int) (pv : List (String × String))
    (s : DState) : (learnLoop cfg t wall pv s).nextCheck ≤ s.nextCheck := by
  induction pv generalizing s with
  | nil => simp [learnLoop]
  | cons e rest ih =>
    obtain ⟨p, v⟩ := e
    simp only [learnLoop]
    cases dictGet s.reg v with
    | some d => exact ih s
    | none =>
      by_cases hl : s.learnMode
      · simp only [if_pos hl]
        exact le_trans (ih _) (min_le_left _ _)
      · simp only [if_neg hl]
        exact ih s

theorem learnLoop_w_pos (cfg : Config) (t wall : Int) (pv : List (String × String))
    (s : DState) (hw : 0 < s.nextCheck) (hc : 0 < t + cfg.defaultInterval) :
    0 < (learnLoop cfg t wall pv s).nextCheck := by
  induction pv generalizing s with
  | nil => simpa [learnLoop] using hw
  | cons e rest ih =>
    obtain ⟨p, v⟩ := e
    simp only [learnLoop]
    cases dictGet s.reg v with
    | some d => exact ih s hw
    | none =>
      by_cases hl : s.learnMode
      · simp only [if_pos hl]
        exact ih _ (by simpa using lt_min hw hc)
      · simp only [if_neg hl]
        exact ih s hw

theorem learnLoop_w_nonneg (cfg : Config) (t wall : Int) (pv : List (String × String))
    (s : DState) (hw : 0 ≤ s.nextCheck) (hc : 0 ≤ t + cfg.defaultInterval) :
    0 ≤ (learnLoop cfg t wall pv s).nextCheck := by
  induction pv generalizing s with
  | nil => simpa [learnLoop] using hw
  | cons e rest ih =>
    obtain ⟨p, v⟩ := e
    simp only [learnLoop]
    cases dictGet s.reg v with
    | some d => exact ih s hw
    | none =>
      by_cases hl : s.learnMode
      · simp only [if_pos hl]
        exact ih _ (by simpa using le_min hw hc)
      · simp only [if_neg hl]
        exact ih s hw

theorem learnLoop_reg (cfg : Config) (t wall : Int) (pv : List (String × String))
    (s : DState) :
    ∃ news, (learnLoop cfg t wall pv s).reg = s.reg ++ news ∧
      ∀ e ∈ news, e.2.d0 = t ∧ e.2.d1 = cfg.defaultInterval ∧ e.2.d2 = 0 ∧
        dictGet s.reg e.1 = none := by
  induction pv generalizing s with
  | nil => exact ⟨[], by simp [learnLoop], by simp⟩
  | cons e rest ih =>
    obtain ⟨p, v⟩ := e
    simp only [learnLoop]
    cases hv : dictGet s.reg v with
    | some d => exact ih s
    | none =>
      by_cases hl : s.learnMode
      · simp only [if_pos hl]
        obtain ⟨news, hreg, hfacts⟩ := ih
          { s with
            reg := dictSet s.reg v ⟨t, cfg.defaultInterval, 0, p⟩,
            nextCheck := min s.nextCheck (t + cfg.defaultInterval),
            stopLearnTs :=
              if s.stopLearnTs ≠ none ∧ s.stopLearnNoAnom ≠ none then
                some (wall + s.stopLearnNoAnom.getD 0)
              else s.stopLearnTs }
        refine ⟨(v, ⟨t, cfg.defaultInterval, 0, p⟩) :: news, ?_, ?_⟩
        · rw [hreg]
          simp [dictSet_of_absent _ hv]
        · intro e he
          rcases List.mem_cons.mp he with h | h
          · rw [h]
            exact ⟨rfl, rfl, rfl, hv⟩
          · have hf := hfacts e h
            refine ⟨hf.1, hf.2.1, hf.2.2.1, ?_⟩
            have := hf.2.2.2
            simp only [dictSet_of_absent _ hv] at this
            exact (dictGet_eq_none_iff.mpr
              (fun hmem => dictGet_eq_none_iff.mp this (by simp [hmem])))
      · simp only [if_neg hl]
        exact ih s

theorem learnLoop_nodup (cfg : Config) (t wall : Int) (pv : List (String × String))
    (s : DState) (hnd : (s.reg.map Prod.fst).Nodup) :
    ((learnLoop cfg t wall pv s).reg.map Prod.fst).Nodup := by
  induction pv generalizing s with
  | nil => simpa [learnLoop] using hnd
  | cons e rest ih =>
    obtain ⟨p, v⟩ := e
    simp only [learnLoop]
    cases hv : dictGet s.reg v with
    | some d => exact ih s hnd
    | none =>
      by_cases hl : s.learnMode
      · simp only [if_pos hl]
        refine ih _ ?_
        simp only [dictSet_of_absent _ hv, List.map_append, List.nodup_append]
        refine ⟨hnd, by simp, ?_⟩
        intro a ha hb
        simp at hb
        rw [hb] at ha
        exact dictGet_eq_none_iff.mp hv ha
      · simp only [if_neg hl]
        exact ih s hnd

theorem learnLoop_get (cfg : Config) (t wall : Int) (pv : List (String × String))
    (s : DState) {k : String} {d : DInfo} (h : dictGet s.reg k = some d) :
    dictGet (learnLoop cfg t wall pv s).reg k = some d := by
  obtain ⟨news, hreg, _⟩ := learnLoop_reg cfg t wall pv s
  rw [hreg]
  exact dictGet_append_left h

/-! ### Lemmas about the update loop after the scan -/

theorem postLoop_lastSeen (t : Int) (pv : List (String × String)) (s : DState) :
    (postLoop t pv s).lastSeenTs = s.lastSeenTs := by
  induction pv generalizing s with
  | nil => simp [postLoop]
  | cons e rest ih =>
    obtain ⟨p, v⟩ := e
    simp only [postLoop]
    cases dictGet s.reg v with
    | none => exact ih s
    | some d => rw [ih]

theorem postLoop_w_le (t : Int) (pv : List (String × String)) (s : DState) :
    (postLoop t pv s).nextCheck ≤ s.nextCheck := by
  induction pv generalizing s with
  | nil => simp [postLoop]
  | cons e rest ih =>
    obtain ⟨p, v⟩ := e
    simp only [postLoop]
    cases dictGet s.reg v with
    | none => exact ih s
    | some d =>
      refine le_trans (ih _) ?_
      by_cases h2 : d.d2 ≠ 0
      · simp only [if_pos h2]
        exact min_le_left _ _
      · simp only [if_neg h2]
        exact le_refl _

theorem postLoop_keys (t : Int) (pv : List (String × String)) (s : DState) :
    (postLoop t pv s).reg.map Prod.fst = s.reg.map Prod.fst := by
  induction pv generalizing s with
  | nil => simp [postLoop]
  | cons e rest ih =>
    obtain ⟨p, v⟩ := e
    simp only [postLoop]
    cases hv : dictGet s.reg v with
    | none => exact ih s
    | some d =>
      rw [ih]
      exact dictSet_keys_of_present _ (by simp [hv])

theorem postLoop_mem (t : Int) (pv : List (String × String)) (s : DState) :
    ∀ e' ∈ (postLoop t pv s).reg, ∃ e ∈ s.reg, e'.1 = e.1 ∧
      (e'.2 = e.2 ∨ (e'.2.d0 = t ∧ e'.2.d1 = e.2.d1 ∧ e'.2.d3 = e.2.d3 ∧
        (e'.2.d2 = e.2.d2 ∨ e'.2.d2 = 0))) := by
  induction pv generalizing s with
  | nil =>
    intro e' he'
    simp only [postLoop] at he'
    exact ⟨e', he', rfl, Or.inl rfl⟩
  | cons e rest ih =>
    obtain ⟨p, v⟩ := e
    intro e' he'
    simp only [postLoop] at he'
    cases hv : dictGet s.reg v with
    | none =>
      rw [hv] at he'
      exact ih s e' he'
    | some d =>
      rw [hv] at he'
      obtain ⟨e1, he1, heq, hrel⟩ := ih _ e' he'
      rcases dictSet_mem he1 with h | h
      · -- the entry written by this iteration of the loop
        have hd : (v, d) ∈ s.reg := dictGet_mem hv
        refine ⟨(v, d), hd, by rw [heq, h], ?_⟩
        rcases hrel with hr | hr
        · rw [h] at hr
          right
          refine ⟨by rw [hr], by rw [hr], by rw [hr], ?_⟩
          rw [hr]
          by_cases hc : d.d2 ≠ 0 ∧ t ≥ d.d2
          · simp [hc]
          · simp [if_neg hc]
        · rw [h] at hr
          right
          refine ⟨hr.1, by rw [hr.2.1], by rw [hr.2.2.1], ?_⟩
          rcases hr.2.2.2 with h2 | h2
          · rw [h2]
            by_cases hc : d.d2 ≠ 0 ∧ t ≥ d.d2
            · simp [hc]
            · simp [if_neg hc]
          · right; exact h2
      · exact ⟨e1, h, heq, hrel⟩

theorem postLoop_d0_fixed (t : Int) (pv : List (String × String)) (s : DState)
    {k : String} {d : DInfo} (hg : dictGet s.reg k = some d) (hd0 : d.d0 = t) :
    ∃ d', dictGet (postLoop t pv s).reg k = some d' ∧ d'.d0 = t := by
  induction pv generalizing s d with
  | nil => exact ⟨d, by simpa [postLoop] using hg, hd0⟩
  | cons e rest ih =>
    obtain ⟨p, v⟩ := e
    simp only [postLoop]
    cases hv : dictGet s.reg v with
    | none => exact ih s hg hd0
    | some dv =>
      by_cases hkv : v = k
      · subst hkv
        exact ih _ (dictGet_set_self _ _ _) rfl
      · exact ih _ (by rw [dictGet_set_ne _ _ _ _ (Ne.symm hkv)]; exact hg) hd0

theorem postLoop_d0_matched (t : Int) (pv : List (String × String)) (s : DState)
    {k : String} {d : DInfo} (hk : k ∈ pv.map Prod.snd) (hg : dictGet s.reg k = some d) :
    ∃ d', dictGet (postLoop t pv s).reg k = some d' ∧ d'.d0 = t := by
  induction pv generalizing s d with
  | nil => simp at hk
  | cons e rest ih =>
    obtain ⟨p, v⟩ := e
    rw [List.map_cons] at hk
    simp only [postLoop]
    rcases List.mem_cons.mp hk with h | h
    · subst h
      rw [hg]
      exact postLoop_d0_fixed t rest _ (dictGet_set_self _ _ _) rfl
    · cases hv : dictGet s.reg v with
      | none => exact ih s h hg
      | some dv =>
        by_cases hkv : v = k
        · subst hkv
          exact postLoop_d0_fixed t rest _ (dictGet_set_self _ _ _) rfl
        · exact ih _ h (by rw [dictGet_set_ne _ _ _ _ (Ne.symm hkv)]; exact hg)

theorem postLoop_suppressed (t : Int) (pv : List (String × String)) (s : DState)
    {k : String} {D : Int} (hall : ∀ p ∈ s.reg, p.1 = k → p.2.d2 = D) (htD : t < D) :
    ∀ p ∈ (postLoop t pv s).reg, p.1 = k → p.2.d2 = D := by
  induction pv generalizing s with
  | nil =>
    intro p hp
    simp only [postLoop] at hp
    exact hall p hp
  | cons e rest ih =>
    obtain ⟨pp, v⟩ := e
    simp only [postLoop]
    cases hv : dictGet s.reg v with
    | none => exact ih s hall
    | some dv =>
      refine ih _ ?_
      intro q hq hqk
      rcases dictSet_mem hq with h | h
      · -- q is the rewritten entry for value v
        have hvk : v = k := by rw [h] at hqk; exact hqk
        subst hvk
        have hdv : dv.d2 = D := hall (v, dv) (dictGet_mem hv) rfl
        rw [h]
        simp only []
        simp only [hdv]
        split_ifs with hcc
        · linarith [hcc.2]
        · rfl
      · exact hall q h hqk

theorem postLoop_w_pos (t : Int) (pv : List (String × String)) (s : DState)
    (hw : 0 < s.nextCheck) (ht : 0 ≤ t) (hd1 : ∀ e ∈ s.reg, 0 < e.2.d1) :
    0 < (postLoop t pv s).nextCheck := by
  induction pv generalizing s with
  | nil => simpa [postLoop] using hw
  | cons e rest ih =>
    obtain ⟨p, v⟩ := e
    simp only [postLoop]
    cases hv : dictGet s.reg v with
    | none => exact ih s hw hd1
    | some dv =>
      have hd1' : ∀ x ∈ (dictSet s.reg v
          { dv with d0 := t, d2 := if dv.d2 ≠ 0 ∧ t ≥ dv.d2 then 0 else dv.d2 }),
          0 < x.2.d1 := by
        intro x hx
        rcases dictSet_mem hx with h | h
        · rw [h]
          exact hd1 (v, dv) (dictGet_mem hv)
        · exact hd1 x h
      refine ih _ ?_ hd1'
      by_cases hc : dv.d2 ≠ 0
      · simp only [if_pos hc]
        refine lt_min hw ?_
        have := hd1 (v, dv) (dictGet_mem hv)
        simp at this
        linarith
      · simpa [if_neg hc] using hw

/-! ### Lemmas about `receive_atom` plumbing -/

theorem stopFlip_reg (s : DState) (a : Int) : (stopFlip s a).reg = s.reg := by
  simp only [stopFlip]
  cases s.stopLearnTs <;> simp only []
  split_ifs <;> rfl

theorem stopFlip_w (s : DState) (a : Int) : (stopFlip s a).nextCheck = s.nextCheck := by
  simp only [stopFlip]
  cases s.stopLearnTs <;> simp only []
  split_ifs <;> rfl

theorem stopFlip_lastSeen (s : DState) (a : Int) : (stopFlip s a).lastSeenTs = s.lastSeenTs := by
  simp only [stopFlip]
  cases s.stopLearnTs <;> simp only []
  split_ifs <;> rfl

theorem receiveAtom_ok_cases {cfg : Config} {s0 : DState} {rec : MatchDict}
    {tsOpt : Option Int} {wall : Int} {s' : DState} {hdl : Bool} {evs : List (List BatchItem)}
    (h : receiveAtom cfg s0 rec tsOpt wall = .ok (s', hdl, evs)) :
    (hdl = false ∧ s' = stopFlip s0 (tsOpt.getD wall) ∧ evs = []) ∨
    (hdl = true ∧ ∃ ps vs, getChannelKey cfg rec = .ok (some (ps, vs)) ∧
      ¬(ps = [] ∧ vs = []) ∧
      s' = (processKeyed cfg (stopFlip s0 (tsOpt.getD wall)) (ps.zip vs)
              (tsOpt.getD wall) wall).1 ∧
      evs = (processKeyed cfg (stopFlip s0 (tsOpt.getD wall)) (ps.zip vs)
              (tsOpt.getD wall) wall).2) := by
  simp only [receiveAtom] at h
  cases hck : getChannelKey cfg rec with
  | error e => rw [hck] at h; exact absurd h (by simp)
  | ok o =>
    rw [hck] at h
    cases o with
    | none =>
      simp only [Except.ok.injEq, Prod.mk.injEq] at h
      exact Or.inl ⟨h.2.1.symm, h.1.symm, h.2.2.symm⟩
    | some pv =>
      obtain ⟨ps, vs⟩ := pv
      by_cases he : ps = [] ∧ vs = []
      · simp only [if_pos he, Except.ok.injEq, Prod.mk.injEq] at h
        exact Or.inl ⟨h.2.1.symm, h.1.symm, h.2.2.symm⟩
      · simp only [if_neg he, Except.ok.injEq, Prod.mk.injEq] at h
        exact Or.inr ⟨h.2.1.symm, ps, vs, rfl, he, h.1.symm, h.2.2.symm⟩

theorem postRel_trans {t : Int} {a b c : DInfo} (h1 : postRel t a b) (h2 : postRel t b c) :
    postRel t a c := by
  rcases h1 with h1 | h1
  · rw [h1]; exact h2
  · rcases h2 with h2 | h2
    · rw [← h2]; exact Or.inr h1
    · refine Or.inr ⟨h1.1, h1.2.1.trans h2.2.1, h1.2.2.1.trans h2.2.2.1, ?_⟩
      rcases h1.2.2.2 with hx | hx
      · rcases h2.2.2.2 with hy | hy
        · exact Or.inl (hx.trans hy)
        · exact Or.inr (hx.trans hy)
      · exact Or.inr hx

theorem postLoop_get_cases (t : Int) (pv : List (String × String)) (s : DState)
    {k : String} {d' : DInfo} (h : dictGet (postLoop t pv s).reg k = some d') :
    ∃ d, dictGet s.reg k = some d ∧ postRel t d' d := by
  induction pv generalizing s with
  | nil =>
    simp only [postLoop] at h
    exact ⟨d', h, Or.inl rfl⟩
  | cons e rest ih =>
    obtain ⟨p, v⟩ := e
    simp only [postLoop] at h
    cases hv : dictGet s.reg v with
    | none =>
      rw [hv] at h
      exact ih s h
    | some dv =>
      rw [hv] at h
      obtain ⟨dmid, hmid, hrel⟩ := ih _ h
      by_cases hkv : k = v
      · subst hkv
        rw [dictGet_set_self] at hmid
        have hstep : postRel t
            ({ dv with d0 := t, d2 := if dv.d2 ≠ 0 ∧ t ≥ dv.d2 then 0 else dv.d2 }) dv := by
          refine Or.inr ⟨rfl, rfl, rfl, ?_⟩
          split_ifs with hc
          · exact Or.inr rfl
          · exact Or.inl rfl
        refine ⟨dv, hv, postRel_trans (Option.some_inj.mp hmid ▸ hrel) hstep⟩
      · rw [dictGet_set_ne _ _ _ _ hkv] at hmid
        exact ⟨dmid, hmid, hrel⟩

/-! ### Claim C6: decoding failures in channel-key extraction -/

/-- C6 counterexample: the claim states that a byte value failing to decode is
replaced by a lossless textual fallback and never surfaces as an exception
from the ingestion path; in the code `get_channel_key` decodes with no
handler, so a record whose targeted byte value cannot be decoded makes
`receive_atom` raise (here: `Except.error`), not return. -/
theorem decode_fail_raises_cex :
    receiveAtom cfgBad (freshState true) [("p", [MVal.b [255]])] (some 5) 0 = .error () := by
  rfl

/-- C6 (amended): a decoding failure inside `get_channel_key` propagates out
of `receive_atom` as an exception; the `repr` fallback exists only in the
event-formatting code of `check_timeouts`, not in channel-key extraction. -/
theorem decode_fail_propagates (cfg : Config) (s : DState) (rec : MatchDict)
    (tsOpt : Option Int) (wall : Int) (h : getChannelKey cfg rec = .error ()) :
    receiveAtom cfg s rec tsOpt wall = .error () := by
  simp only [receiveAtom, h]

/-- Witness for C6 at a concrete undecodable record. -/
theorem decode_fail_propagates_witness :
    getChannelKey cfgBad [("p", [MVal.b [255]])] = .error () ∧
    receiveAtom cfgBad (freshState true) [("p", [MVal.b [255]])] (some 5) 0 = .error () :=
  ⟨by rfl, decode_fail_propagates cfgBad (freshState true) _ (some 5) 0 (by rfl)⟩

/-! ### Claim C5: combined-mode all-or-nothing -/

theorem channelKeyGo_missing {cfg : Config} {rec : MatchDict} {p : String}
    (hc : cfg.combineValues = true) (hm : mdGet rec p = none) :
    ∀ paths, p ∈ paths →
      channelKeyGo cfg rec paths = .error () ∨ channelKeyGo cfg rec paths = .ok none := by
  intro paths hp
  induction paths with
  | nil => simp at hp
  | cons q rest ih =>
    rcases List.mem_cons.mp hp with h | h
    · subst h
      simp only [channelKeyGo, hm, hc]
      simp
    · simp only [channelKeyGo]
      cases hq : mdGet rec q with
      | none => simp [hc]
      | some ms =>
        cases hd : decodeVals cfg.decode ms with
        | error e => simp [hd]
        | ok vs =>
          rcases ih h with hr | hr
          · simp [hd, hr]
          · simp [hd, hr]

/-- C5 (amended): in combined mode a record from which some configured target
path is absent is never tracked: `receive_atom` either raises a decoding
exception coming from a path listed before the missing one (see C6), or
returns `false` with the registry, the watermark and the last-seen timestamp
unchanged and no event emitted. The claim as stated (always `handled=false`,
no mutation) holds whenever the decoder does not fail first. -/
theorem combined_missing_path (cfg : Config) (s0 : DState) (rec : MatchDict)
    (tsOpt : Option Int) (wall : Int) (p : String) (hc : cfg.combineValues = true)
    (hp : p ∈ cfg.targetPaths) (hm : mdGet rec p = none) :
    receiveAtom cfg s0 rec tsOpt wall = .error () ∨
    ∃ s', receiveAtom cfg s0 rec tsOpt wall = .ok (s', false, []) ∧
      s'.reg = s0.reg ∧ s'.nextCheck = s0.nextCheck ∧ s'.lastSeenTs = s0.lastSeenTs := by
  rcases channelKeyGo_missing hc hm cfg.targetPaths hp with h | h
  · left
    have hck : getChannelKey cfg rec = .error () := by
      simp only [getChannelKey, h]
    simp only [receiveAtom, hck]
  · right
    have hck : getChannelKey cfg rec = .ok none := by
      simp only [getChannelKey, h]
    refine ⟨stopFlip s0 (tsOpt.getD wall), ?_, stopFlip_reg s0 _, stopFlip_w s0 _,
      stopFlip_lastSeen s0 _⟩
    simp only [receiveAtom, hck]

/-- C5 counterexample: a combined-mode record missing target path `p2` but
carrying an undecodable byte value under `p1` makes `receive_atom` raise
instead of returning `handled = false`. -/
theorem combined_missing_path_cex :
    receiveAtom cfgComb (freshState true) [("p1", [MVal.b [255]])] (some 5) 0 = .error () := by
  rfl

/-- Witness for C5 at a concrete record missing `p2` with a decodable `p1`. -/
theorem combined_missing_path_witness :
    (cfgComb.combineValues = true ∧ "p2" ∈ cfgComb.targetPaths ∧
      mdGet [("p1", [MVal.s "x"])] "p2" = none) ∧
    (receiveAtom cfgComb (freshState true) [("p1", [MVal.s "x"])] (some 5) 0 = .error () ∨
     ∃ s', receiveAtom cfgComb (freshState true) [("p1", [MVal.s "x"])] (some 5) 0 =
         .ok (s', false, []) ∧
       s'.reg = (freshState true).reg ∧ s'.nextCheck = (freshState true).nextCheck ∧
       s'.lastSeenTs = (freshState true).lastSeenTs) :=
  ⟨⟨rfl, by simp [cfgComb], rfl⟩,
   combined_missing_path cfgComb (freshState true) _ (some 5) 0 "p2" rfl
     (by simp [cfgComb]) rfl⟩

/-! ### Claim C8: `remove_check_value` -/

/-- C8: `remove_check_value` fails (raises `KeyError`, modeled as
`Except.error`) exactly when the key is absent, in which case no state is
produced and the registry object is untouched; on a present key it removes
that entry (the key no longer resolves, so later scans cannot reference it)
and changes nothing else: all other keys, the watermark and the last-seen
timestamp are unchanged. -/
theorem remove_check_value_spec (s : DState) (v : String)
    (hnd : (s.reg.map Prod.fst).Nodup) :
    (removeCheckValue s v = .error () ↔ dictGet s.reg v = none) ∧
    (∀ s', removeCheckValue s v = .ok s' →
      dictGet s'.reg v = none ∧ (∀ k, k ≠ v → dictGet s'.reg k = dictGet s.reg k) ∧
      s'.nextCheck = s.nextCheck ∧ s'.lastSeenTs = s.lastSeenTs) := by
  constructor
  · constructor
    · intro h
      cases hv : dictGet s.reg v with
      | none => rfl
      | some d => simp [removeCheckValue, hv] at h
    · intro h
      simp [removeCheckValue, h]
  · intro s' h
    cases hv : dictGet s.reg v with
    | none => simp [removeCheckValue, hv] at h
    | some d =>
      simp only [removeCheckValue, hv, Except.ok.injEq] at h
      rw [← h]
      exact ⟨dictDel_get_self hnd, fun k hk => dictDel_get_ne _ _ _ hk, rfl, rfl⟩

/-- Witness for C8 on a concrete one-entry registry. -/
theorem remove_check_value_spec_witness :
    ((([("A", (⟨1, 2, 3, "q"⟩ : DInfo))].map Prod.fst).Nodup) ∧
      removeCheckValue ⟨[("A", ⟨1, 2, 3, "q"⟩)], 7, 8, true, none, none⟩ "B" = .error () ∧
      removeCheckValue ⟨[("A", ⟨1, 2, 3, "q"⟩)], 7, 8, true, none, none⟩ "A" =
        .ok ⟨[], 7, 8, true, none, none⟩) ∧
    ((removeCheckValue ⟨[("A", ⟨1, 2, 3, "q"⟩)], 7, 8, true, none, none⟩ "A" = .error () ↔
      dictGet [("A", ⟨1, 2, 3, "q"⟩)] "A" = none) ∧
     (∀ s', removeCheckValue ⟨[("A", ⟨1, 2, 3, "q"⟩)], 7, 8, true, none, none⟩ "A" = .ok s' →
        dictGet s'.reg "A" = none ∧
        (∀ k, k ≠ "A" → dictGet s'.reg k = dictGet [("A", ⟨1, 2, 3, "q"⟩)] k) ∧
        s'.nextCheck = 7 ∧ s'.lastSeenTs = 8)) :=
  ⟨⟨by decide, by rfl, by rfl⟩,
   remove_check_value_spec ⟨[("A", ⟨1, 2, 3, "q"⟩)], 7, 8, true, none, none⟩ "A" (by decide)⟩

/-! ### Claim C9: persistence round trip -/

/-- C9 (amended): persisting and reloading with an unchanged configuration is
the identity on the registry provided every entry's stored interval equals
the configured `default_interval` and every entry's `source_path` passes the
reload filter. The reload compares each entry's own stored interval to the
configured default, so an entry carrying a per-key custom interval (installed
through `set_check_value` / the allow-list call) is rewritten on reload —
`interval := default_interval`, `suppress_until := last_seen +
default_interval` — even though the configuration never changed. -/
theorem load_round_trip (tp : Option (List String)) (combine : Bool) (defInt : Int)
    (reg : List (String × DInfo))
    (h : ∀ e ∈ reg, e.2.d1 = defInt ∧ loadKeep tp combine e) :
    loadPersistence tp combine defInt reg = reg := by
  induction reg with
  | nil => rfl
  | cons e r ih =>
    have he := h e (List.mem_cons_self e r)
    have hr := fun x hx => h x (List.mem_cons_of_mem e hx)
    obtain ⟨k, v⟩ := e
    have h1 : ¬(v.d1 ≠ defInt) := by simpa using he.1
    cases tp with
    | none =>
      simp only [loadPersistence]
      simp [if_neg h1, ih hr]
    | some tpl =>
      have hk := he.2
      simp only [loadKeep] at hk
      cases combine with
      | true =>
        simp only [loadPersistence]
        simp [hk.1 rfl, if_neg h1, ih hr]
      | false =>
        have hcon : tpl.contains v.d3 = true := List.elem_eq_true_of_mem (hk.2 rfl)
        simp only [loadPersistence]
        simp [hcon, hk.2 rfl, if_neg h1, ih hr]

/-- C9 counterexample: an entry with a per-key interval of 50 under an
unchanged configuration (`default_interval = 3600`, same target path) is not
reloaded identically: the reload overwrites its interval and recomputes
`suppress_until = 1000 + 3600`, so the claim's round-trip identity fails. -/
theorem load_round_trip_cex :
    loadPersistence (some ["p"]) false 3600 [("A", ⟨1000, 50, 0, "p"⟩)] =
      [("A", ⟨1000, 3600, 4600, "p"⟩)] ∧
    loadPersistence (some ["p"]) false 3600 [("A", ⟨1000, 50, 0, "p"⟩)] ≠
      [("A", ⟨1000, 50, 0, "p"⟩)] := by
  constructor
  · rfl
  · decide

/-- Witness for C9 on a registry whose entries all carry the default
interval and matching source paths. -/
theorem load_round_trip_witness :
    (∀ e ∈ [("A", (⟨7, 3600, 0, "p"⟩ : DInfo)), ("B", (⟨9, 3600, 100, "p"⟩ : DInfo))],
      e.2.d1 = 3600 ∧ loadKeep (some ["p"]) false e) ∧
    loadPersistence (some ["p"]) false 3600
        [("A", ⟨7, 3600, 0, "p"⟩), ("B", ⟨9, 3600, 100, "p"⟩)] =
      [("A", ⟨7, 3600, 0, "p"⟩), ("B", ⟨9, 3600, 100, "p"⟩)] :=
  ⟨by intro e he; fin_cases he <;>
      exact ⟨rfl, fun hx => Bool.noConfusion hx, fun _ => by decide⟩,
   load_round_trip (some ["p"]) false 3600 _
     (by intro e he; fin_cases he <;>
        exact ⟨rfl, fun hx => Bool.noConfusion hx, fun _ => by decide⟩)⟩

/-! ### Claim C7: last_seen monotonicity -/

theorem checkTimeouts_get (cfg : Config) (s : DState) (t : Int) {k : String} {d : DInfo}
    (hk : dictGet s.reg k = some d) :
    ∃ dm, dictGet (checkTimeouts cfg s t).1.reg k = some dm ∧
      (dm = d ∨ dm = ⟨d.d0, d.d1, max s.lastSeenTs t + cfg.realertInterval, d.d3⟩) := by
  simp only [checkTimeouts]
  split_ifs with hs hz
  · exact dictGet_of_forall₂
      (P := fun x y => y = x ∨
        y = ⟨x.d0, x.d1, max s.lastSeenTs t + cfg.realertInterval, x.d3⟩)
      (scanLoop_entries (max s.lastSeenTs t) s.lastSeenTs cfg.realertInterval s.reg _) hk
  · exact dictGet_of_forall₂
      (P := fun x y => y = x ∨
        y = ⟨x.d0, x.d1, max s.lastSeenTs t + cfg.realertInterval, x.d3⟩)
      (scanLoop_entries (max s.lastSeenTs t) s.lastSeenTs cfg.realertInterval s.reg _) hk
  · exact ⟨d, hk, Or.inl rfl⟩

/-- C7 counterexample: the claim states `last_seen` never decreases over any
record sequence, including out-of-order timestamps. After a record for key
`A` at time 100 its entry has `last_seen = 100`; a second record for `A`
carrying the older timestamp 50 overwrites `last_seen` with 50 (source line
134 assigns the record timestamp without taking a maximum). -/
theorem last_seen_decreases_cex :
    runSeq cfgA [callA "A" 100] (freshState true) =
      .ok (⟨[("A", ⟨100, 100, 0, "p"⟩)], 200, 100, true, none, none⟩, []) ∧
    runSeq cfgA [callA "A" 100, callA "A" 50] (freshState true) =
      .ok (⟨[("A", ⟨50, 100, 0, "p"⟩)], 200, 100, true, none, none⟩, []) := by
  constructor
  · rfl
  · rfl

/-- C7 (amended): an update sets `last_seen` to the record's timestamp, so
`last_seen` never decreases provided each record carrying a key arrives with
a timestamp at least the entry's current `last_seen` (in particular for
non-decreasing record timestamps); an out-of-order record instead lowers it
to its own timestamp. -/
theorem last_seen_monotone (cfg : Config) (s0 : DState) (rec : MatchDict)
    (tsOpt : Option Int) (wall : Int) {k : String} {d : DInfo}
    (hk : dictGet s0.reg k = some d) (ht : d.d0 ≤ tsOpt.getD wall)
    {s' : DState} {hdl : Bool} {evs : List (List BatchItem)}
    (h : receiveAtom cfg s0 rec tsOpt wall = .ok (s', hdl, evs)) :
    ∃ d', dictGet s'.reg k = some d' ∧ d.d0 ≤ d'.d0 := by
  rcases receiveAtom_ok_cases h with ⟨_, hs, _⟩ | ⟨_, ps, vs, hck, hne, hs, hevs⟩
  · refine ⟨d, ?_, le_refl _⟩
    rw [hs, stopFlip_reg]
    exact hk
  · have hk1 : dictGet (stopFlip s0 (tsOpt.getD wall)).reg k = some d := by
      rw [stopFlip_reg]; exact hk
    have hk2 := learnLoop_get cfg (tsOpt.getD wall) wall (ps.zip vs) _ hk1
    obtain ⟨dm, hdm, hrel⟩ := checkTimeouts_get cfg _ (tsOpt.getD wall) hk2
    have hdm0 : dm.d0 = d.d0 := by rcases hrel with h1 | h1 <;> rw [h1]
    rw [hs]
    simp only [processKeyed]
    -- the final lookup succeeds because the update loop preserves the keys
    have hsome : (dictGet (postLoop (tsOpt.getD wall) (ps.zip vs)
        (checkTimeouts cfg (learnLoop cfg (tsOpt.getD wall) wall (ps.zip vs)
          (stopFlip s0 (tsOpt.getD wall))) (tsOpt.getD wall)).1).reg k).isSome := by
      rw [dictGet_isSome_iff, postLoop_keys, ← dictGet_isSome_iff, hdm]
      rfl
    obtain ⟨d', hd'⟩ := Option.isSome_iff_exists.mp hsome
    refine ⟨d', hd', ?_⟩
    obtain ⟨dpre, hpre, hrel'⟩ := postLoop_get_cases _ _ _ hd'
    have hpm : dpre = dm := Option.some_inj.mp (hpre.symm.trans hdm)
    subst hpm
    rcases hrel' with h1 | h1
    · rw [h1, hdm0]
    · rw [h1.1, ← hdm0]
      rw [hdm0]
      exact ht

/-- Witness for C7: a record for `A` at time 150 on a state where `A` was
last seen at 100 keeps `last_seen` nondecreasing. -/
theorem last_seen_monotone_witness :
    (dictGet [("A", ⟨100, 100, 0, "p"⟩)] "A" = some ⟨100, 100, 0, "p"⟩ ∧
      (100 : Int) ≤ (Option.some (150 : Int)).getD 0) ∧
    ∃ d', dictGet ((⟨[("A", ⟨150, 100, 0, "p"⟩)], 200, 150, true, none, none⟩ :
        DState)).reg "A" = some d' ∧ (100 : Int) ≤ d'.d0 := by
  refine ⟨⟨rfl, by decide⟩, ?_⟩
  have hrun : receiveAtom cfgA (⟨[("A", ⟨100, 100, 0, "p"⟩)], 0, 0, true, none, none⟩ : DState)
      (recA "A") (some 150) 0 =
      .ok (⟨[("A", ⟨150, 100, 0, "p"⟩)], 200, 150, true, none, none⟩, true, []) := by rfl
  exact last_seen_monotone cfgA
    (⟨[("A", ⟨100, 100, 0, "p"⟩)], 0, 0, true, none, none⟩ : DState) (recA "A") (some 150) 0
    (k := "A") (d := ⟨100, 100, 0, "p"⟩) rfl (by decide) hrun

/-! ### Claim C4: when last_seen is advanced relative to the scan -/

theorem channelKeyGo_len {cfg : Config} {rec : MatchDict} {paths : List String}
    {ps vs : List String} (h : channelKeyGo cfg rec paths = .ok (some (ps, vs))) :
    ps.length = vs.length := by
  induction paths generalizing ps vs with
  | nil =>
    simp only [channelKeyGo, Except.ok.injEq, Option.some.injEq, Prod.mk.injEq] at h
    rw [← h.1, ← h.2]
  | cons q rest ih =>
    simp only [channelKeyGo] at h
    cases hq : mdGet rec q with
    | none =>
      rw [hq] at h
      by_cases hc : cfg.combineValues
      · simp [hc] at h
      · simp only [hc, if_false] at h
        exact ih h
    | some ms =>
      rw [hq] at h
      simp only [] at h
      cases hd : decodeVals cfg.decode ms with
      | error e =>
        rw [hd] at h
        simp at h
      | ok ws =>
        rw [hd] at h
        simp only [] at h
        cases hr : channelKeyGo cfg rec rest with
        | error e =>
          rw [hr] at h
          simp at h
        | ok o =>
          rw [hr] at h
          cases o with
          | none => simp at h
          | some pr =>
            obtain ⟨ps', vs'⟩ := pr
            simp only [Except.ok.injEq, Option.some.injEq, Prod.mk.injEq] at h
            rw [← h.1, ← h.2]
            simp [ih hr]

theorem getChannelKey_len {cfg : Config} {rec : MatchDict} {ps vs : List String}
    (h : getChannelKey cfg rec = .ok (some (ps, vs))) : ps.length = vs.length := by
  simp only [getChannelKey] at h
  cases hr : channelKeyGo cfg rec cfg.targetPaths with
  | error e =>
    rw [hr] at h
    simp at h
  | ok o =>
    rw [hr] at h
    cases o with
    | none => simp at h
    | some pr =>
      obtain ⟨ps', vs'⟩ := pr
      simp only [] at h
      cases hcb : cfg.combineValues with
      | true =>
        rw [hcb] at h
        simp only [if_pos, Except.ok.injEq, Option.some.injEq, Prod.mk.injEq] at h
        rw [← h.1, ← h.2]
        rfl
      | false =>
        rw [hcb] at h
        simp only [Bool.false_eq_true, if_false, Except.ok.injEq, Option.some.injEq,
          Prod.mk.injEq] at h
        rw [← h.1, ← h.2]
        exact channelKeyGo_len hr

/-- C4 counterexample: the claim states that `last_seen` is advanced to the
record timestamp for every matched key before the timeout evaluation, so a
channel matched by the current record would be scanned with `last_seen = t`
and never be overdue in its own record's scan. In the code the scan runs
before the update loop: after learning `A` at time 0, the record for `A`
itself at time 150 triggers a scan that still sees `last_seen = 0` and
reports `A` overdue by 50 seconds (150 - 0 - 100), then suppresses it until
1150; with the claimed order the batch would have been empty. -/
theorem scan_uses_old_last_seen_cex :
    runSeq cfgA [callA "A" 0, callA "A" 150] (freshState true) =
      .ok (⟨[("A", ⟨150, 100, 1150, "p"⟩)], 250, 150, true, none, none⟩,
        [[⟨"p", "A", 50, 100⟩]]) := by
  rfl

/-- C4 (amended): newly learned keys are inserted with `last_seen = t` before
the timeout evaluation, but an existing matched entry keeps its previous
`last_seen` during the scan triggered by its own record (so a gap that ends
with the current record is still reported, as the counterexample shows);
`last_seen` is advanced to the record timestamp only by the update loop after
the scan, as this theorem states for every matched key present in the final
registry. -/
theorem matched_last_seen_set (cfg : Config) (s0 : DState) (rec : MatchDict)
    (tsOpt : Option Int) (wall : Int) {k : String} {ps vs : List String}
    (hck : getChannelKey cfg rec = .ok (some (ps, vs))) (hk : k ∈ vs)
    {s' : DState} {evs : List (List BatchItem)}
    (h : receiveAtom cfg s0 rec tsOpt wall = .ok (s', true, evs)) :
    ∀ d', dictGet s'.reg k = some d' → d'.d0 = tsOpt.getD wall := by
  intro d' hd'
  rcases receiveAtom_ok_cases h with ⟨hf, _, _⟩ | ⟨_, ps', vs', hck', hne, hs, hevs⟩
  · exact absurd hf (by simp)
  · rw [hck] at hck'
    simp only [Except.ok.injEq, Option.some.injEq, Prod.mk.injEq] at hck'
    obtain ⟨hps, hvs⟩ := hck'
    subst hps; subst hvs
    rw [hs] at hd'
    simp only [processKeyed] at hd'
    have hzip : (ps.zip vs).map Prod.snd = vs :=
      List.map_snd_zip ps vs (le_of_eq (getChannelKey_len hck).symm)
    have hkzip : k ∈ (ps.zip vs).map Prod.snd := by rw [hzip]; exact hk
    -- the key is present before the update loop because it is present after
    have hpre : (dictGet (checkTimeouts cfg (learnLoop cfg (tsOpt.getD wall) wall
        (ps.zip vs) (stopFlip s0 (tsOpt.getD wall))) (tsOpt.getD wall)).1.reg k).isSome := by
      rw [dictGet_isSome_iff, ← postLoop_keys (tsOpt.getD wall) (ps.zip vs),
        ← dictGet_isSome_iff, hd']
      rfl
    obtain ⟨dpre, hdpre⟩ := Option.isSome_iff_exists.mp hpre
    obtain ⟨dfin, hdfin, hdf0⟩ := postLoop_d0_matched (tsOpt.getD wall) (ps.zip vs) _
      hkzip hdpre
    have : d' = dfin := Option.some_inj.mp (hd'.symm.trans hdfin)
    rw [this, hdf0]

/-- Witness for C4: after the run of the counterexample record, the matched
entry's `last_seen` equals the record timestamp 150. -/
theorem matched_last_seen_set_witness :
    (getChannelKey cfgA (recA "A") = .ok (some (["p"], ["A"])) ∧ "A" ∈ ["A"]) ∧
    (∀ d', dictGet ((⟨[("A", ⟨150, 100, 1150, "p"⟩)], 250, 150, true, none, none⟩ :
        DState)).reg "A" = some d' → d'.d0 = (Option.some (150 : Int)).getD 0) := by
  refine ⟨⟨by rfl, by decide⟩, ?_⟩
  have hrun : receiveAtom cfgA (⟨[("A", ⟨0, 100, 0, "p"⟩)], 0, 0, true, none, none⟩ : DState)
      (recA "A") (some 150) 0 =
      .ok (⟨[("A", ⟨150, 100, 1150, "p"⟩)], 250, 150, true, none, none⟩, true,
        [[⟨"p", "A", 50, 100⟩]]) := by rfl
  exact matched_last_seen_set cfgA _ (recA "A") (some 150) 0 (by rfl) (by decide) hrun

/-! ### Claim C10: the watermark never rises within a call that starts nonzero -/

theorem checkTimeouts_w_le_of_pos (cfg : Config) (s : DState) (t : Int)
    (hw : 0 < s.nextCheck) : (checkTimeouts cfg s t).1.nextCheck ≤ s.nextCheck := by
  simp only [checkTimeouts]
  split_ifs with hs hz
  · exact absurd hz (by linarith)
  · exact scanLoop_w_le _ _ _ _ _
  · exact le_refl _

/-- C10 counterexample: the claim states that a `receive_atom` call starting
with a nonzero watermark never increases it. With `default_interval = 10` the
state after records `A@3` and `C@20` has watermark 13; a further record for a
new key `B` carrying the negative timestamp -10 first zeroes the watermark
while learning `B` (min of 13 and -10+10), and the scan then resets the zero
sentinel to `last_seen + realert_interval` and lowers it only to 30: the call
raised the watermark from 13 to 30. -/
theorem watermark_raised_cex :
    runSeq cfgB [callA "A" 3, callA "C" 20] (freshState true) =
      .ok (⟨[("A", ⟨3, 10, 1020, "p"⟩), ("C", ⟨20, 10, 0, "p"⟩)], 13, 20, true, none, none⟩,
        [[⟨"p", "A", 7, 10⟩]]) ∧
    receiveAtom cfgB
        (⟨[("A", ⟨3, 10, 1020, "p"⟩), ("C", ⟨20, 10, 0, "p"⟩)], 13, 20, true, none, none⟩ :
          DState) (recA "B") (some (-10)) 0 =
      .ok (⟨[("A", ⟨3, 10, 1020, "p"⟩), ("C", ⟨20, 10, 0, "p"⟩), ("B", ⟨-10, 10, 0, "p"⟩)],
        30, 20, true, none, none⟩, true, []) ∧
    ((13 : Int) ≠ 0 ∧ (13 : Int) < 30) := by
  exact ⟨by rfl, by rfl, by decide⟩

/-- C10 (amended): every watermark update in `receive_atom` takes the minimum
of the current watermark and a candidate, and the only upward assignment is
the sentinel reset applied when the watermark is exactly 0 at scan time; with
a nonnegative record timestamp and a positive `default_interval` the learning
candidates stay positive, the watermark cannot reach 0 inside the call, and a
call that starts with a positive watermark never increases it. A negative
record timestamp can zero the watermark mid-call and re-trigger the sentinel,
raising it (see the counterexample). -/
theorem watermark_nonincreasing (cfg : Config) (s0 : DState) (rec : MatchDict)
    (tsOpt : Option Int) (wall : Int) (hI : 0 < cfg.defaultInterval)
    (hw : 0 < s0.nextCheck) (ht : 0 ≤ tsOpt.getD wall)
    {s' : DState} {hdl : Bool} {evs : List (List BatchItem)}
    (h : receiveAtom cfg s0 rec tsOpt wall = .ok (s', hdl, evs)) :
    s'.nextCheck ≤ s0.nextCheck := by
  rcases receiveAtom_ok_cases h with ⟨_, hs, _⟩ | ⟨_, ps, vs, hck, hne, hs, hevs⟩
  · rw [hs, stopFlip_w]
  · rw [hs]
    simp only [processKeyed]
    have hw1 : 0 < (learnLoop cfg (tsOpt.getD wall) wall (ps.zip vs)
        (stopFlip s0 (tsOpt.getD wall))).nextCheck := by
      refine learnLoop_w_pos _ _ _ _ _ ?_ (by linarith)
      rw [stopFlip_w]
      exact hw
    refine le_trans (postLoop_w_le _ _ _) ?_
    refine le_trans (checkTimeouts_w_le_of_pos _ _ _ hw1) ?_
    rw [← stopFlip_w s0 (tsOpt.getD wall)]
    exact learnLoop_w_le _ _ _ _ _

/-- Witness for C10: a call with nonnegative timestamp on the watermark-13
state of the counterexample does not raise the watermark. -/
theorem watermark_nonincreasing_witness :
    ((0 : Int) < cfgB.defaultInterval ∧
      (0 : Int) < (13 : Int) ∧ (0 : Int) ≤ (Option.some (25 : Int)).getD 0) ∧
    (⟨[("A", ⟨3, 10, 1020, "p"⟩), ("C", ⟨20, 10, 0, "p"⟩), ("D", ⟨25, 10, 0, "p"⟩)],
        13, 25, true, none, none⟩ : DState).nextCheck ≤ (13 : Int) := by
  refine ⟨⟨by decide, by decide, by decide⟩, ?_⟩
  have hrun : receiveAtom cfgB
      (⟨[("A", ⟨3, 10, 1020, "p"⟩), ("C", ⟨20, 10, 0, "p"⟩)], 13, 20, true, none, none⟩ :
        DState) (recA "D") (some 25) 0 =
      .ok (⟨[("A", ⟨3, 10, 1020, "p"⟩), ("C", ⟨20, 10, 0, "p"⟩), ("D", ⟨25, 10, 0, "p"⟩)],
        13, 25, true, none, none⟩, true, []) := by rfl
  exact watermark_nonincreasing cfgB _ (recA "D") (some 25) 0 (by decide) (by decide)
    (by decide) hrun

/-! ### Claim C3: re-alert suppression -/

theorem keyCount_append (a b : List (List BatchItem)) (k : String) :
    keyCount (a ++ b) k = keyCount a k + keyCount b k := by
  simp [keyCount, List.flatten_append, List.count_append]

theorem allK_of_get {l : List (String × DInfo)} {k : String} {d : DInfo}
    (hnd : (l.map Prod.fst).Nodup) (hg : dictGet l k = some d) :
    ∀ p ∈ l, p.1 = k → p.2 = d := by
  intro p hp hpk
  have : dictGet l k = some p.2 := by
    rw [← hpk]
    exact dictGet_of_mem_nodup hnd (by rw [show p = (p.1, p.2) from rfl] at hp; exact hp)
  exact Option.some_inj.mp (this.symm.trans hg)

theorem checkTimeouts_suppressed (cfg : Config) (s : DState) (t : Int) {k : String} {D : Int}
    (hall : ∀ p ∈ s.reg, p.1 = k → p.2.d2 = D) (hD : D ≠ 0)
    (hLD : max s.lastSeenTs t < D) :
    (∀ p ∈ (checkTimeouts cfg s t).1.reg, p.1 = k → p.2.d2 = D) ∧
    (∀ it ∈ (checkTimeouts cfg s t).2, it.value ≠ k) := by
  simp only [checkTimeouts]
  split_ifs with hs hz
  · have := @scanLoop_suppressed (max s.lastSeenTs t) s.lastSeenTs cfg.realertInterval
      s.reg (max s.lastSeenTs t + cfg.realertInterval) k D hD hLD hall
    exact ⟨fun p hp => this.2 p hp, fun it hit => this.1 it hit⟩
  · have := @scanLoop_suppressed (max s.lastSeenTs t) s.lastSeenTs cfg.realertInterval
      s.reg s.nextCheck k D hD hLD hall
    exact ⟨fun p hp => this.2 p hp, fun it hit => this.1 it hit⟩
  · exact ⟨hall, by simp⟩

theorem receiveAtom_suppressed (cfg : Config) (s0 : DState) (rec : MatchDict)
    (tsOpt : Option Int) (wall : Int) {k : String} {D : Int}
    (hp : (dictGet s0.reg k).isSome)
    (hall : ∀ p ∈ s0.reg, p.1 = k → p.2.d2 = D)
    (hD : D ≠ 0) (hls : s0.lastSeenTs < D) (ht : tsOpt.getD wall < D)
    {s' : DState} {hdl : Bool} {evs : List (List BatchItem)}
    (h : receiveAtom cfg s0 rec tsOpt wall = .ok (s', hdl, evs)) :
    (dictGet s'.reg k).isSome ∧ (∀ p ∈ s'.reg, p.1 = k → p.2.d2 = D) ∧
    s'.lastSeenTs < D ∧ keyCount evs k = 0 := by
  rcases receiveAtom_ok_cases h with ⟨_, hs, hevs⟩ | ⟨_, ps, vs, hck, hne, hs, hevs⟩
  · rw [hs, stopFlip_reg, stopFlip_lastSeen]
    exact ⟨hp, hall, hls, by rw [hevs]; rfl⟩
  · obtain ⟨dk, hdk⟩ := Option.isSome_iff_exists.mp hp
    set t := tsOpt.getD wall with hts
    set sa := stopFlip s0 t with hsa
    have hareg : sa.reg = s0.reg := stopFlip_reg s0 t
    have hals : sa.lastSeenTs = s0.lastSeenTs := stopFlip_lastSeen s0 t
    set s1 := learnLoop cfg t wall (ps.zip vs) sa with hs1
    obtain ⟨news, hreg1, hnews⟩ := learnLoop_reg cfg t wall (ps.zip vs) sa
    have hall1 : ∀ p ∈ s1.reg, p.1 = k → p.2.d2 = D := by
      intro p hpm hpk
      rw [hs1, hreg1] at hpm
      rcases List.mem_append.mp hpm with hm | hm
      · exact hall p (hareg ▸ hm) hpk
      · have := (hnews p hm).2.2.2
        rw [hpk, hareg, hdk] at this
        exact absurd this (by simp)
    have hls1 : s1.lastSeenTs = s0.lastSeenTs := by
      rw [hs1, learnLoop_lastSeen, hals]
    have hLD : max s1.lastSeenTs t < D := by
      rw [hls1]
      exact max_lt hls ht
    have hct := checkTimeouts_suppressed cfg s1 t hall1 hD hLD
    have hget1 : (dictGet s1.reg k).isSome := by
      rw [hs1, hreg1, hareg, dictGet_append_left hdk]
      rfl
    have hget2 : (dictGet (checkTimeouts cfg s1 t).1.reg k).isSome := by
      rw [dictGet_isSome_iff]
      have hkeys : (checkTimeouts cfg s1 t).1.reg.map Prod.fst = s1.reg.map Prod.fst := by
        simp only [checkTimeouts]
        split_ifs <;> first | exact scanLoop_keys _ _ _ _ _ | rfl
      rw [hkeys, ← dictGet_isSome_iff]
      exact hget1
    have hlsct : (checkTimeouts cfg s1 t).1.lastSeenTs = max s1.lastSeenTs t := by
      simp only [checkTimeouts]
      split_ifs <;> rfl
    constructor
    · rw [hs]
      simp only [processKeyed]
      rw [dictGet_isSome_iff, postLoop_keys, ← dictGet_isSome_iff]
      exact hget2
    constructor
    · rw [hs]
      simp only [processKeyed]
      exact postLoop_suppressed t (ps.zip vs) _ hct.1 ht
    constructor
    · rw [hs]
      simp only [processKeyed]
      rw [postLoop_lastSeen, hlsct]
      exact hLD
    · rw [hevs]
      simp only [processKeyed]
      by_cases hb : (checkTimeouts cfg s1 t).2 = []
      · simp [hb, keyCount]
      · simp only [if_neg hb, keyCount, List.flatten_cons, List.flatten_nil,
          List.append_nil]
        rw [List.count_eq_zero]
        intro hmem
        obtain ⟨it, hit, hval⟩ := List.mem_map.mp hmem
        exact hct.2 it hit hval

theorem receiveAtom_alerted (cfg : Config) (s0 : DState) (rec : MatchDict)
    (tsOpt : Option Int) (wall : Int) (hnd : (s0.reg.map Prod.fst).Nodup)
    (hR : 0 < cfg.realertInterval) {s' : DState} {evs : List (List BatchItem)} {k : String}
    (h : receiveAtom cfg s0 rec tsOpt wall = .ok (s', true, evs))
    (hk : 1 ≤ keyCount evs k) :
    (dictGet s'.reg k).isSome ∧
    (∀ p ∈ s'.reg, p.1 = k →
      p.2.d2 = max s0.lastSeenTs (tsOpt.getD wall) + cfg.realertInterval) ∧
    s'.lastSeenTs = max s0.lastSeenTs (tsOpt.getD wall) := by
  rcases receiveAtom_ok_cases h with ⟨hf, _, _⟩ | ⟨_, ps, vs, hck, hne, hs, hevs⟩
  · exact absurd hf (by simp)
  · set t := tsOpt.getD wall with hts
    set sa := stopFlip s0 t with hsa
    set s1 := learnLoop cfg t wall (ps.zip vs) sa with hs1
    have hls1 : s1.lastSeenTs = s0.lastSeenTs := by
      rw [hs1, learnLoop_lastSeen, hsa, stopFlip_lastSeen]
    have hnd1 : (s1.reg.map Prod.fst).Nodup := by
      rw [hs1]
      refine learnLoop_nodup _ _ _ _ _ ?_
      rw [hsa, stopFlip_reg]
      exact hnd
    -- the batch is non-empty, so the scan ran
    have hbne : (checkTimeouts cfg s1 t).2 ≠ [] := by
      intro hb
      rw [hevs] at hk
      simp only [processKeyed, hb, if_pos] at hk
      simp [keyCount] at hk
    have hscan : s1.nextCheck < max s1.lastSeenTs t := by
      by_contra hc
      apply hbne
      have heq : checkTimeouts cfg s1 t =
          ({ s1 with lastSeenTs := max s1.lastSeenTs t }, []) := by
        simp only [checkTimeouts, if_neg hc]
      rw [heq]
    have hct1 : (checkTimeouts cfg s1 t).1.reg =
        (scanLoop (max s1.lastSeenTs t) s1.lastSeenTs cfg.realertInterval s1.reg
          (if s1.nextCheck = 0 then max s1.lastSeenTs t + cfg.realertInterval
           else s1.nextCheck)).1 := by
      simp only [checkTimeouts, if_pos hscan]
    have hct2 : (checkTimeouts cfg s1 t).2 =
        (scanLoop (max s1.lastSeenTs t) s1.lastSeenTs cfg.realertInterval s1.reg
          (if s1.nextCheck = 0 then max s1.lastSeenTs t + cfg.realertInterval
           else s1.nextCheck)).2.2.1 := by
      simp only [checkTimeouts, if_pos hscan]
    have hct3 : (checkTimeouts cfg s1 t).1.lastSeenTs = max s1.lastSeenTs t := by
      simp only [checkTimeouts, if_pos hscan]
    set sc := scanLoop (max s1.lastSeenTs t) s1.lastSeenTs cfg.realertInterval s1.reg
      (if s1.nextCheck = 0 then max s1.lastSeenTs t + cfg.realertInterval
       else s1.nextCheck) with hsc
    -- extract the alerted batch item for key k
    have hevs1 : evs = [sc.2.2.1] := by
      rw [hevs]
      simp only [processKeyed]
      rw [hct2, if_neg (by rw [hct2] at hbne; exact hbne)]
    have hmem : ∃ it ∈ sc.2.2.1, it.value = k := by
      rw [hevs1] at hk
      simp only [keyCount, List.flatten_cons, List.flatten_nil, List.append_nil] at hk
      have hpos : 0 < (sc.2.2.1.map BatchItem.value).count k := by omega
      obtain ⟨it, hit, hval⟩ := List.mem_map.mp (List.count_pos_iff.mp hpos)
      exact ⟨it, hit, hval⟩
    obtain ⟨it, hit, hval⟩ := hmem
    obtain ⟨da, hda, hda2⟩ := scanLoop_alert_d2 hnd1 it hit
    rw [hval] at hda
    have hndo : (sc.1.map Prod.fst).Nodup := by
      rw [hsc, scanLoop_keys]
      exact hnd1
    have hallo := allK_of_get hndo (by rw [hsc]; exact hda)
    have hallo2 : ∀ p ∈ sc.1, p.1 = k →
        p.2.d2 = max s1.lastSeenTs t + cfg.realertInterval := by
      intro p hp hpk
      rw [hallo p hp hpk]
      exact hda2
    have htL : t < max s1.lastSeenTs t + cfg.realertInterval := by
      have hle : t ≤ max s1.lastSeenTs t := le_max_right _ _
      linarith
    have hLs0 : max s1.lastSeenTs t = max s0.lastSeenTs t := by rw [hls1]
    refine ⟨?_, ?_, ?_⟩
    · rw [hs]
      simp only [processKeyed]
      rw [dictGet_isSome_iff, postLoop_keys, hct1, hsc, scanLoop_keys, ← hval]
      exact scanLoop_batch_keys _ _ _ _ _ it (by rw [← hsc]; exact hit)
    · rw [hs]
      simp only [processKeyed]
      rw [← hLs0]
      refine postLoop_suppressed t (ps.zip vs) _ ?_ htL
      rw [hct1]
      exact hallo2
    · rw [hs]
      simp only [processKeyed]
      rw [postLoop_lastSeen, hct3]
      exact hLs0

theorem runSeq_suppressed (cfg : Config) {k : String} {D : Int} (hD : D ≠ 0) :
    ∀ calls : List Call, ∀ s : DState, (dictGet s.reg k).isSome →
      (∀ p ∈ s.reg, p.1 = k → p.2.d2 = D) → s.lastSeenTs < D →
      (∀ c ∈ calls, tOf c < D) →
      ∀ sf evs, runSeq cfg calls s = .ok (sf, evs) → keyCount evs k = 0 := by
  intro calls
  induction calls with
  | nil =>
    intro s _ _ _ _ sf evs h
    simp only [runSeq, Except.ok.injEq, Prod.mk.injEq] at h
    rw [← h.2]
    rfl
  | cons c r ih =>
    intro s hp hall hls hts sf evs h
    simp only [runSeq] at h
    cases hra : receiveAtom cfg s c.record c.ts c.wall with
    | error e =>
      rw [hra] at h
      exact absurd h (by simp)
    | ok res =>
      obtain ⟨s1, hdl1, evs1⟩ := res
      rw [hra] at h
      simp only [] at h
      cases hrs : runSeq cfg r s1 with
      | error e =>
        rw [hrs] at h
        simp at h
      | ok res2 =>
        obtain ⟨s2, evs2⟩ := res2
        rw [hrs] at h
        simp only [Except.ok.injEq, Prod.mk.injEq] at h
        obtain ⟨hsf, hevs⟩ := h
        have hsup := receiveAtom_suppressed cfg s c.record c.ts c.wall hp hall hD hls
          (hts c (List.mem_cons_self c r)) hra
        have hrest := ih s1 hsup.1 hsup.2.1 hsup.2.2.1
          (fun c' hc' => hts c' (List.mem_cons_of_mem c hc')) s2 evs2 hrs
        rw [← hevs, keyCount_append, hsup.2.2.2, hrest]

/-- C3: once an entry is alerted during a scan at reference time `T` (the
maximum of the previous `last_seen_timestamp` and the record timestamp), its
suppression deadline is `T + realert_interval`, and the entry appears in no
alert batch of any later `receive_atom` call whose record timestamp stays
below `T + realert_interval`, even if it remains overdue and even if records
for the same key keep arriving during that window. -/
theorem realert_suppression (cfg : Config) (s0 : DState) (rec : MatchDict)
    (tsOpt : Option Int) (wall : Int) (calls : List Call)
    (hnd : (s0.reg.map Prod.fst).Nodup) (hR : 0 < cfg.realertInterval)
    (hls0 : 0 ≤ s0.lastSeenTs)
    {s1 : DState} {evs1 : List (List BatchItem)} {k : String}
    (h1 : receiveAtom cfg s0 rec tsOpt wall = .ok (s1, true, evs1))
    (hk : 1 ≤ keyCount evs1 k)
    (hcalls : ∀ c ∈ calls,
      tOf c < max s0.lastSeenTs (tsOpt.getD wall) + cfg.realertInterval)
    {sf : DState} {evs : List (List BatchItem)}
    (h2 : runSeq cfg calls s1 = .ok (sf, evs)) :
    keyCount evs k = 0 := by
  obtain ⟨hp1, hall1, hls1⟩ := receiveAtom_alerted cfg s0 rec tsOpt wall hnd hR h1 hk
  have hT0 : 0 ≤ max s0.lastSeenTs (tsOpt.getD wall) := le_max_of_le_left hls0
  have hD0 : 0 < max s0.lastSeenTs (tsOpt.getD wall) + cfg.realertInterval := by linarith
  refine runSeq_suppressed cfg (by linarith) calls s1 hp1 hall1 ?_ hcalls sf evs h2
  rw [hls1]
  linarith

/-- Witness for C3: key `A` (learned at time 0, alerted by the scan of a
record at time 201, suppressed until 1201) is absent from the batch of a
later scan at time 500 even though it is still overdue. -/
theorem realert_suppression_witness :
    (([("A", (⟨0, 100, 0, "p"⟩ : DInfo))].map Prod.fst).Nodup ∧
      (0 : Int) < cfgA.realertInterval ∧
      1 ≤ keyCount [[⟨"p", "A", 101, 100⟩]] "A" ∧
      (500 : Int) < max (0 : Int) ((Option.some (201 : Int)).getD 0) +
        cfgA.realertInterval) ∧
    keyCount [[⟨"p", "B", 199, 100⟩]] "A" = 0 := by
  refine ⟨⟨by decide, by decide, by decide, by decide⟩, ?_⟩
  have h1 : receiveAtom cfgA (⟨[("A", ⟨0, 100, 0, "p"⟩)], 0, 0, true, none, none⟩ : DState)
      (recA "B") (some 201) 0 =
      .ok (⟨[("A", ⟨0, 100, 1201, "p"⟩), ("B", ⟨201, 100, 0, "p"⟩)], 301, 201, true,
        none, none⟩, true, [[⟨"p", "A", 101, 100⟩]]) := by rfl
  have h2 : runSeq cfgA [callA "A" 500]
      (⟨[("A", ⟨0, 100, 1201, "p"⟩), ("B", ⟨201, 100, 0, "p"⟩)], 301, 201, true,
        none, none⟩ : DState) =
      .ok (⟨[("A", ⟨500, 100, 1201, "p"⟩), ("B", ⟨201, 100, 1500, "p"⟩)], 301, 500, true,
        none, none⟩, [[⟨"p", "B", 199, 100⟩]]) := by rfl
  exact realert_suppression cfgA _ (recA "B") (some 201) 0 [callA "A" 500]
    (by decide) (by decide) (by decide) h1 (by decide)
    (by intro c hc; fin_cases hc; decide) h2

/-! ### The reachable-state invariant (claims C1 and C2) -/

theorem postLoop_w_nonneg (t : Int) (pv : List (String × String)) (s : DState)
    (hw : 0 ≤ s.nextCheck) (ht : 0 ≤ t) (hd1 : ∀ e ∈ s.reg, 0 ≤ e.2.d1) :
    0 ≤ (postLoop t pv s).nextCheck := by
  induction pv generalizing s with
  | nil => simpa [postLoop] using hw
  | cons e rest ih =>
    obtain ⟨p, v⟩ := e
    simp only [postLoop]
    cases hv : dictGet s.reg v with
    | none => exact ih s hw hd1
    | some dv =>
      have hd1' : ∀ x ∈ (dictSet s.reg v
          { dv with d0 := t, d2 := if dv.d2 ≠ 0 ∧ t ≥ dv.d2 then 0 else dv.d2 }),
          0 ≤ x.2.d1 := by
        intro x hx
        rcases dictSet_mem hx with h | h
        · rw [h]
          exact hd1 (v, dv) (dictGet_mem hv)
        · exact hd1 x h
      refine ih _ ?_ hd1'
      by_cases hc : dv.d2 ≠ 0
      · simp only [if_pos hc]
        refine le_min hw ?_
        have := hd1 (v, dv) (dictGet_mem hv)
        simp at this
        linarith
      · simpa [if_neg hc] using hw

theorem forall₂_mem_right {P : (String × DInfo) → (String × DInfo) → Prop}
    {l l' : List (String × DInfo)} (h : List.Forall₂ P l l') :
    ∀ b ∈ l', ∃ a ∈ l, P a b := by
  induction h with
  | nil => simp
  | cons hab hr ih =>
    intro b hb
    rcases List.mem_cons.mp hb with h1 | h1
    · rename_i a b' l1 l2
      exact ⟨a, List.mem_cons_self _ _, h1 ▸ hab⟩
    · obtain ⟨a, ha, hP⟩ := ih b h1
      exact ⟨a, List.mem_cons_of_mem _ ha, hP⟩

theorem scanLoop_mem_out {L old R : Int} {l : List (String × DInfo)} {w : Int} :
    ∀ e' ∈ (scanLoop L old R l w).1, ∃ e ∈ l, e'.1 = e.1 ∧
      (e'.2 = e.2 ∨ e'.2 = ⟨e.2.d0, e.2.d1, L + R, e.2.d3⟩) := by
  intro e' he'
  obtain ⟨e, he, hP⟩ := forall₂_mem_right (scanLoop_entries L old R l w) e' he'
  exact ⟨e, he, hP.1.symm, hP.2⟩

theorem stateInv_stopFlip {cfg : Config} {s : DState} (a : Int) (h : StateInv cfg s) :
    StateInv cfg (stopFlip s a) := by
  unfold StateInv at h ⊢
  rw [stopFlip_reg, stopFlip_w, stopFlip_lastSeen]
  exact h

theorem stateInv_fresh (cfg : Config) (learn : Bool) (hI : 0 ≤ cfg.defaultInterval) :
    StateInv cfg (freshState learn) := by
  unfold StateInv freshState
  refine ⟨le_refl 0, le_refl 0, by simp, by simp, fun _ => ⟨rfl, by simp⟩, ?_, by simp⟩
  have : (0 : Int) ≤ max cfg.defaultInterval cfg.realertInterval :=
    le_trans hI (le_max_left _ _)
  simpa using this

theorem stateInv_postLoop (cfg : Config) (L t : Int) (pv : List (String × String))
    (s : DState) (hI : 0 < cfg.defaultInterval) (ht : 0 ≤ t) (htL : t ≤ L)
    (hm : MidInv cfg L s) : StateInv cfg (postLoop t pv s) := by
  obtain ⟨m1, m2, m3, m4, m5, m6, m7⟩ := hm
  refine ⟨?_, ?_, ?_, ?_, ?_, ?_, ?_⟩
  · rw [postLoop_lastSeen, m1]
    exact le_trans ht htL
  · exact postLoop_w_nonneg t pv s m2 ht
      (fun e he => by rw [(m4 e he).1]; exact le_of_lt hI)
  · rw [postLoop_keys]
    exact m3
  · intro e' he'
    obtain ⟨e, he, -, hrel⟩ := postLoop_mem t pv s e' he'
    obtain ⟨hd1, hd0, hd2⟩ := m4 e he
    rcases hrel with h | ⟨h0, h1, h3, h2⟩
    · rw [h]
      exact ⟨hd1, hd0, hd2⟩
    · refine ⟨by rw [h1, hd1], by rw [h0]; exact ht, ?_⟩
      rcases h2 with h2 | h2
      · rw [h2]; exact hd2
      · rw [h2]
  · intro hz
    have hw0 : s.nextCheck = 0 := by
      by_contra hne
      have hpos : 0 < s.nextCheck := lt_of_le_of_ne m2 (Ne.symm hne)
      have := postLoop_w_pos t pv s hpos ht
        (fun e he => by rw [(m4 e he).1]; exact hI)
      omega
    obtain ⟨hL0, hall⟩ := m5 hw0
    have ht0 : t = 0 := le_antisymm (hL0 ▸ htL) ht
    refine ⟨by rw [postLoop_lastSeen, m1, hL0], ?_⟩
    intro e' he'
    obtain ⟨e, he, -, hrel⟩ := postLoop_mem t pv s e' he'
    obtain ⟨h0, h2⟩ := hall e he
    rcases hrel with h | ⟨ha, -, -, hb⟩
    · rw [h]
      exact ⟨h0, h2⟩
    · refine ⟨by rw [ha, ht0], ?_⟩
      rcases hb with hb | hb
      · rw [hb, h2]
      · exact hb
  · rw [postLoop_lastSeen, m1]
    exact le_trans (postLoop_w_le t pv s) m6
  · intro e' he' hne
    obtain ⟨e, he, -, hrel⟩ := postLoop_mem t pv s e' he'
    have hd2eq : e'.2.d2 = e.2.d2 := by
      rcases hrel with h | ⟨-, -, -, hb⟩
      · rw [h]
      · rcases hb with hb | hb
        · exact hb
        · exact absurd hb hne
    rw [hd2eq] at hne ⊢
    exact le_trans (postLoop_w_le t pv s) (m7 e he hne)

theorem midInv_checkTimeouts (cfg : Config) (sa : DState) (t wall : Int)
    (pv : List (String × String))
    (hI : 0 < cfg.defaultInterval) (hR : 0 < cfg.realertInterval)
    (ht : 0 ≤ t) (hinv : StateInv cfg sa) :
    MidInv cfg (max (learnLoop cfg t wall pv sa).lastSeenTs t)
      (checkTimeouts cfg (learnLoop cfg t wall pv sa) t).1 := by
  obtain ⟨h1, h2, h3, h4, h5, h6, h7⟩ := hinv
  set s1 := learnLoop cfg t wall pv sa with hs1
  obtain ⟨news, hreg1, hnews⟩ := learnLoop_reg cfg t wall pv sa
  have hls1 : s1.lastSeenTs = sa.lastSeenTs := learnLoop_lastSeen cfg t wall pv sa
  have hw1le : s1.nextCheck ≤ sa.nextCheck := learnLoop_w_le cfg t wall pv sa
  have hw1nn : 0 ≤ s1.nextCheck := learnLoop_w_nonneg cfg t wall pv sa h2 (by linarith)
  have hnd1 : (s1.reg.map Prod.fst).Nodup := learnLoop_nodup cfg t wall pv sa h3
  have hent1 : ∀ e ∈ s1.reg, e.2.d1 = cfg.defaultInterval ∧ 0 ≤ e.2.d0 ∧ 0 ≤ e.2.d2 := by
    intro e he
    rw [hs1, hreg1] at he
    rcases List.mem_append.mp he with h | h
    · exact h4 e h
    · obtain ⟨e0, e1, e2, -⟩ := hnews e h
      exact ⟨e1, by rw [e0]; exact ht, by rw [e2]⟩
  have hzero : s1.nextCheck = 0 → sa.nextCheck = 0 := by
    intro hz
    by_contra hne
    have := learnLoop_w_pos cfg t wall pv sa
      (lt_of_le_of_ne h2 (Ne.symm hne)) (by linarith)
    rw [← hs1] at this
    omega
  have hL0 : 0 ≤ max s1.lastSeenTs t := le_trans ht (le_max_right _ _)
  have htL : t ≤ max s1.lastSeenTs t := le_max_right _ _
  have hsaL : sa.lastSeenTs ≤ max s1.lastSeenTs t := by
    rw [← hls1]; exact le_max_left _ _
  by_cases hscan : s1.nextCheck < max s1.lastSeenTs t
  · -- a scan runs
    have hreg : (checkTimeouts cfg s1 t).1.reg =
        (scanLoop (max s1.lastSeenTs t) s1.lastSeenTs cfg.realertInterval s1.reg
          (if s1.nextCheck = 0 then max s1.lastSeenTs t + cfg.realertInterval
           else s1.nextCheck)).1 := by
      simp only [checkTimeouts, if_pos hscan]
    have hw : (checkTimeouts cfg s1 t).1.nextCheck =
        (scanLoop (max s1.lastSeenTs t) s1.lastSeenTs cfg.realertInterval s1.reg
          (if s1.nextCheck = 0 then max s1.lastSeenTs t + cfg.realertInterval
           else s1.nextCheck)).2.1 := by
      simp only [checkTimeouts, if_pos hscan]
    have hls : (checkTimeouts cfg s1 t).1.lastSeenTs = max s1.lastSeenTs t := by
      simp only [checkTimeouts, if_pos hscan]
    have hWpos : 0 < (if s1.nextCheck = 0 then max s1.lastSeenTs t + cfg.realertInterval
        else s1.nextCheck) := by
      split_ifs with hz
      · linarith
      · exact lt_of_le_of_ne hw1nn (Ne.symm hz)
    have hWle : (if s1.nextCheck = 0 then max s1.lastSeenTs t + cfg.realertInterval
        else s1.nextCheck) ≤
        max s1.lastSeenTs t + max cfg.defaultInterval cfg.realertInterval := by
      split_ifs with hz
      · exact add_le_add_left (le_max_right _ _) _
      · calc s1.nextCheck ≤ sa.nextCheck := hw1le
          _ ≤ sa.lastSeenTs + max cfg.defaultInterval cfg.realertInterval := h6
          _ ≤ _ := add_le_add_right hsaL _
    have hwle := scanLoop_w_le (max s1.lastSeenTs t) s1.lastSeenTs cfg.realertInterval
      s1.reg (if s1.nextCheck = 0 then max s1.lastSeenTs t + cfg.realertInterval
        else s1.nextCheck)
    have hwpos := scanLoop_w_pos (max s1.lastSeenTs t) s1.lastSeenTs cfg.realertInterval
      s1.reg (if s1.nextCheck = 0 then max s1.lastSeenTs t + cfg.realertInterval
        else s1.nextCheck) hWpos
      (fun e he => ⟨by rw [(hent1 e he).1]; exact hI, (hent1 e he).2⟩)
    refine ⟨hls, ?_, ?_, ?_, ?_, ?_, ?_⟩
    · rw [hw]
      exact le_of_lt hwpos
    · rw [hreg]
      rw [show ((scanLoop (max s1.lastSeenTs t) s1.lastSeenTs cfg.realertInterval s1.reg
        (if s1.nextCheck = 0 then max s1.lastSeenTs t + cfg.realertInterval
         else s1.nextCheck)).1.map Prod.fst) = s1.reg.map Prod.fst from
        scanLoop_keys _ _ _ _ _]
      exact hnd1
    · rw [hreg]
      intro e' he'
      obtain ⟨e, he, -, hrel⟩ := scanLoop_mem_out e' he'
      obtain ⟨hd1, hd0, hd2⟩ := hent1 e he
      rcases hrel with h | h
      · rw [h]
        exact ⟨hd1, hd0, hd2⟩
      · rw [h]
        exact ⟨hd1, hd0, by simp only []; linarith⟩
    · intro hz
      rw [hw] at hz
      exact absurd hz (ne_of_gt hwpos)
    · rw [hw]
      exact le_trans hwle hWle
    · rw [hreg, hw]
      intro e' he' hne
      by_cases hz : s1.nextCheck = 0
      · -- sentinel scan: nothing was suppressed before, so a nonzero deadline
        -- was written by this scan and equals the reset watermark
        have hall0 : ∀ e ∈ s1.reg, e.2.d2 = 0 := by
          intro e he
          rw [hs1, hreg1] at he
          rcases List.mem_append.mp he with h | h
          · exact ((h5 (hzero hz)).2 e h).2
          · exact (hnews e h).2.2.1
        obtain ⟨e, he, -, hrel⟩ := scanLoop_mem_out e' he'
        rcases hrel with h | h
        · rw [h] at hne
          exact absurd (hall0 e he) hne
        · rw [h]
          simp only []
          refine le_trans hwle ?_
          rw [if_pos hz]
      · -- ordinary scan: a kept deadline carries the pre-call bound through
        -- the min chain; a fresh deadline is the scan time plus the realert
        -- interval, above the lowered watermark
        rw [if_neg hz] at hwle ⊢
        obtain ⟨e, he, -, hrel⟩ := scanLoop_mem_out e' he'
        rcases hrel with hcase | hcase
        · rw [hcase] at hne ⊢
          rw [hs1, hreg1] at he
          rcases List.mem_append.mp he with hm | hm
          · exact le_trans hwle (le_trans hw1le (h7 e hm hne))
          · exact absurd ((hnews e hm).2.2.1) hne
        · rw [hcase]
          simp only []
          linarith [hwle, hscan, hR]
  · -- the watermark has not passed: no scan
    have hreg : (checkTimeouts cfg s1 t).1.reg = s1.reg := by
      simp only [checkTimeouts, if_neg hscan]
    have hw : (checkTimeouts cfg s1 t).1.nextCheck = s1.nextCheck := by
      simp only [checkTimeouts, if_neg hscan]
    have hls : (checkTimeouts cfg s1 t).1.lastSeenTs = max s1.lastSeenTs t := by
      simp only [checkTimeouts, if_neg hscan]
    have hLw : max s1.lastSeenTs t ≤ s1.nextCheck := not_lt.mp hscan
    refine ⟨hls, ?_, ?_, ?_, ?_, ?_, ?_⟩
    · rw [hw]; exact hw1nn
    · rw [hreg]; exact hnd1
    · rw [hreg]; exact hent1
    · intro hz
      rw [hw] at hz
      have hL00 : max s1.lastSeenTs t = 0 := le_antisymm (hz ▸ hLw) hL0
      have ht0 : t = 0 := le_antisymm (hL00 ▸ htL) ht
      refine ⟨hL00, ?_⟩
      rw [hreg]
      intro e he
      rw [hs1, hreg1] at he
      rcases List.mem_append.mp he with h | h
      · exact (h5 (hzero hz)).2 e h
      · exact ⟨by rw [(hnews e h).1, ht0], (hnews e h).2.2.1⟩
    · rw [hw]
      calc s1.nextCheck ≤ sa.nextCheck := hw1le
        _ ≤ sa.lastSeenTs + max cfg.defaultInterval cfg.realertInterval := h6
        _ ≤ _ := add_le_add_right hsaL _
    · rw [hreg, hw]
      intro e he hne
      rw [hs1, hreg1] at he
      rcases List.mem_append.mp he with h | h
      · exact le_trans hw1le (h7 e h hne)
      · exact absurd ((hnews e h).2.2.1) hne

theorem stateInv_receiveAtom (cfg : Config) (s0 : DState) (rec : MatchDict)
    (tsOpt : Option Int) (wall : Int)
    (hI : 0 < cfg.defaultInterval) (hR : 0 < cfg.realertInterval)
    (hinv : StateInv cfg s0) (ht : 0 ≤ tsOpt.getD wall)
    {s' : DState} {hdl : Bool} {evs : List (List BatchItem)}
    (h : receiveAtom cfg s0 rec tsOpt wall = .ok (s', hdl, evs)) :
    StateInv cfg s' := by
  rcases receiveAtom_ok_cases h with ⟨-, hs, -⟩ | ⟨-, ps, vs, hck, hne, hs, hevs⟩
  · rw [hs]
    exact stateInv_stopFlip _ hinv
  · rw [hs]
    simp only [processKeyed]
    exact stateInv_postLoop cfg _ _ _ _ hI ht (le_max_right _ _)
      (midInv_checkTimeouts cfg (stopFlip s0 (tsOpt.getD wall)) (tsOpt.getD wall)
        wall (ps.zip vs) hI hR ht (stateInv_stopFlip _ hinv))

theorem stateInv_runSeq (cfg : Config) (calls : List Call)
    (hI : 0 < cfg.defaultInterval) (hR : 0 < cfg.realertInterval) :
    ∀ s : DState, StateInv cfg s → CallsNonneg calls →
    ∀ {sf : DState} {evs : List (List BatchItem)},
      runSeq cfg calls s = .ok (sf, evs) → StateInv cfg sf := by
  induction calls with
  | nil =>
    intro s hs _ sf evs h
    simp only [runSeq, Except.ok.injEq, Prod.mk.injEq] at h
    rw [← h.1]
    exact hs
  | cons c rest ih =>
    intro s hs hts sf evs h
    simp only [runSeq] at h
    cases hra : receiveAtom cfg s c.record c.ts c.wall with
    | error e =>
      rw [hra] at h
      exact absurd h (by simp)
    | ok x =>
      obtain ⟨s1, hdl1, evs1⟩ := x
      rw [hra] at h
      simp only [] at h
      cases hrs : runSeq cfg rest s1 with
      | error e =>
        rw [hrs] at h
        exact absurd h (by simp)
      | ok y =>
        obtain ⟨s2, evs2⟩ := y
        rw [hrs] at h
        simp only [Except.ok.injEq, Prod.mk.injEq] at h
        have hinv1 := stateInv_receiveAtom cfg s c.record c.ts c.wall hI hR hs
          (by simpa [tOf] using hts c (List.mem_cons_self c rest)) hra
        rw [← h.1]
        exact ih s1 hinv1 (fun x hx => hts x (List.mem_cons_of_mem c hx)) hrs

/-- C2 counterexample: the claim asserts the watermark never exceeds the due
time `last_seen + interval` of a NORMAL (`suppress_until = 0`) entry. With
`default_interval = 100` the records `A@0` then `C@100` leave `A` NORMAL with
due time `0 + 100 = 100`, yet the scan of the second call breaks at the
not-yet-due entry `C` and sets `next_check_timestamp = 200 > 100`: entry `A`
is already overdue but the watermark lies past its due time. -/
theorem watermark_exceeds_due_cex :
    runSeq cfgA [callA "A" 0, callA "C" 100] (freshState true) =
      .ok (⟨[("A", ⟨0, 100, 0, "p"⟩), ("C", ⟨100, 100, 0, "p"⟩)], 200, 100, true, none, none⟩,
        []) ∧
    ((0 : Int) ≠ 0 → False) ∧ (0 : Int) + 100 < 200 := by
  exact ⟨by rfl, by decide, by decide⟩

/-- C2 (amended): after any sequence of records with nonnegative timestamps
processed from a fresh detector (positive configured intervals), the final
watermark `next_check_timestamp` is ≤ every `suppress_until` deadline of an
OVERDUE_ALERTED entry, and is within
`max(default_interval, realert_interval)` of the final
`last_seen_timestamp_max`; the claimed bound by the due times of NORMAL
entries does not hold (see the counterexample). -/
theorem watermark_bound (cfg : Config) (calls : List Call) (learn : Bool)
    (hI : 0 < cfg.defaultInterval) (hR : 0 < cfg.realertInterval)
    (hts : CallsNonneg calls)
    {sf : DState} {evs : List (List BatchItem)}
    (h : runSeq cfg calls (freshState learn) = .ok (sf, evs)) :
    (∀ e ∈ sf.reg, e.2.d2 ≠ 0 → sf.nextCheck ≤ e.2.d2) ∧
    sf.nextCheck ≤ sf.lastSeenTs + max cfg.defaultInterval cfg.realertInterval := by
  have hinv := stateInv_runSeq cfg calls hI hR (freshState learn)
    (stateInv_fresh cfg learn (le_of_lt hI)) hts h
  exact ⟨hinv.2.2.2.2.2.2, hinv.2.2.2.2.2.1⟩

theorem watermark_bound_witness :
    CallsNonneg [callA "A" 3, callA "C" 20] ∧
    ((∀ e ∈ (⟨[("A", ⟨3, 10, 1020, "p"⟩), ("C", ⟨20, 10, 0, "p"⟩)], 13, 20, true, none,
          none⟩ : DState).reg,
        e.2.d2 ≠ 0 →
        (⟨[("A", ⟨3, 10, 1020, "p"⟩), ("C", ⟨20, 10, 0, "p"⟩)], 13, 20, true, none,
          none⟩ : DState).nextCheck ≤ e.2.d2) ∧
      (⟨[("A", ⟨3, 10, 1020, "p"⟩), ("C", ⟨20, 10, 0, "p"⟩)], 13, 20, true, none,
          none⟩ : DState).nextCheck ≤
        (⟨[("A", ⟨3, 10, 1020, "p"⟩), ("C", ⟨20, 10, 0, "p"⟩)], 13, 20, true, none,
          none⟩ : DState).lastSeenTs + max cfgB.defaultInterval cfgB.realertInterval) := by
  have hcn : CallsNonneg [callA "A" 3, callA "C" 20] := by
    unfold CallsNonneg
    decide
  exact ⟨hcn, watermark_bound cfgB [callA "A" 3, callA "C" 20] true (by decide) (by decide)
    hcn rfl⟩

/-- C1 counterexample: the claim requires an entry to be batched by any scan
triggered by a record whose timestamp is *at or past* the due time
`last_seen + interval`. With `default_interval = 100`, after `A@0` a record
`B@100` triggers a scan at `last_seen_timestamp = 100`, exactly `A`'s due
time `0 + 100`; the overdue test of line 191 is strict (`delay > 0` via
`overdueTime < 0` / `> 0` branches), so `A` is not batched and no event is
emitted at all (the scan then breaks at the fresh entry `B`, leaving the
watermark at 200). -/
theorem overdue_at_due_skipped_cex :
    runSeq cfgA [callA "A" 0, callA "B" 100] (freshState true) =
      .ok (⟨[("A", ⟨0, 100, 0, "p"⟩), ("B", ⟨100, 100, 0, "p"⟩)], 200, 100, true, none,
        none⟩, []) ∧
    (0 : Int) + 100 ≤ 100 ∧ keyCount [] "A" = 0 := by
  exact ⟨by rfl, by decide, by rfl⟩

/-- C1 (amended): in a reachable state (nonnegative clock fields etc., positive
default interval), a handled record that triggers a full registry scan (the
watermark after the learning loop lies below the scan time
`max(last_seen_timestamp, t)`) while a NORMAL (`suppress_until = 0`) entry is
strictly past its due time `last_seen + interval` makes the call emit that
entry in its batch exactly once: the strictly-overdue entry is never skipped
(the `break` of line 193 cannot fire before it) and the unique key yields a
single batch item. At exactly the due time the entry is omitted (see the
counterexample). -/
theorem overdue_alerted_once (cfg : Config) (s : DState) (rec : MatchDict)
    (tsOpt : Option Int) (wall : Int)
    (hI : 0 < cfg.defaultInterval)
    (hinv : StateInv cfg s) (ht : 0 ≤ tsOpt.getD wall)
    {k : String} {d : DInfo} (hk : dictGet s.reg k = some d)
    (hd2 : d.d2 = 0) (hdue : d.d0 + d.d1 < max s.lastSeenTs (tsOpt.getD wall))
    {ps vs : List String}
    (hck : getChannelKey cfg rec = .ok (some (ps, vs)))
    (hsc : (learnLoop cfg (tsOpt.getD wall) wall (ps.zip vs)
        (stopFlip s (tsOpt.getD wall))).nextCheck < max s.lastSeenTs (tsOpt.getD wall))
    {s' : DState} {evs : List (List BatchItem)}
    (h : receiveAtom cfg s rec tsOpt wall = .ok (s', true, evs)) :
    keyCount evs k = 1 := by
  obtain ⟨h1, h2, h3, h4, h5, h6, h7⟩ := hinv
  rcases receiveAtom_ok_cases h with ⟨hf, -, -⟩ | ⟨-, ps', vs', hck', hne, hs, hevs⟩
  · exact absurd hf (by simp)
  · rw [hck] at hck'
    simp only [Except.ok.injEq, Option.some.injEq, Prod.mk.injEq] at hck'
    obtain ⟨hps, hvs⟩ := hck'
    subst hps
    subst hvs
    set t := tsOpt.getD wall with htdef
    set sa := stopFlip s t with hsadef
    have hareg : sa.reg = s.reg := stopFlip_reg s t
    have hals : sa.lastSeenTs = s.lastSeenTs := stopFlip_lastSeen s t
    have haw : sa.nextCheck = s.nextCheck := stopFlip_w s t
    rw [hevs]
    simp only [processKeyed]
    set s1 := learnLoop cfg t wall (ps.zip vs) sa with hs1
    obtain ⟨news, hreg1, hnews⟩ := learnLoop_reg cfg t wall (ps.zip vs) sa
    have hreg1' : s1.reg = sa.reg ++ news := hreg1
    have hls1 : s1.lastSeenTs = s.lastSeenTs := by
      rw [hs1, learnLoop_lastSeen, hals]
    have hw1nn : 0 ≤ s1.nextCheck := by
      rw [hs1]
      exact learnLoop_w_nonneg cfg t wall (ps.zip vs) sa (by rw [haw]; exact h2)
        (by linarith)
    have hnd1 : (s1.reg.map Prod.fst).Nodup := by
      rw [hs1]
      exact learnLoop_nodup cfg t wall (ps.zip vs) sa (by rw [hareg]; exact h3)
    have hd2all : ∀ e ∈ s1.reg, 0 ≤ e.2.d2 := by
      intro e he
      rw [hreg1'] at he
      rcases List.mem_append.mp he with hm | hm
      · exact (h4 e (by rw [← hareg]; exact hm)).2.2
      · rw [(hnews e hm).2.2.1]
    have hk1 : dictGet s1.reg k = some d := by
      rw [hs1]
      exact learnLoop_get cfg t wall (ps.zip vs) sa (by rw [hareg]; exact hk)
    have hscan : s1.nextCheck < max s1.lastSeenTs t := by
      rw [hls1]
      exact hsc
    have hbatch : (checkTimeouts cfg s1 t).2 =
        (scanLoop (max s1.lastSeenTs t) s1.lastSeenTs cfg.realertInterval s1.reg
          (if s1.nextCheck = 0 then max s1.lastSeenTs t + cfg.realertInterval
           else s1.nextCheck)).2.2.1 := by
      simp only [checkTimeouts, if_pos hscan]
    have hod : 0 < overdueTime (max s1.lastSeenTs t) d := by
      simp only [overdueTime]
      rw [hls1]
      linarith [hdue]
    have hmem : (⟨d.d3, k, overdueTime (max s1.lastSeenTs t) d, d.d1⟩ : BatchItem) ∈
        (checkTimeouts cfg s1 t).2 := by
      rw [hbatch]
      by_cases hz : s1.nextCheck = 0
      · -- sentinel scan: every previously-known entry is uniformly overdue
        have hsw0 : s.nextCheck = 0 := by
          by_contra hne0
          have hpos : 0 < sa.nextCheck := by
            rw [haw]
            exact lt_of_le_of_ne h2 (Ne.symm hne0)
          have := learnLoop_w_pos cfg t wall (ps.zip vs) sa hpos (by linarith)
          rw [← hs1] at this
          omega
        obtain ⟨hls0, hall0⟩ := h5 hsw0
        have hkmem : (k, d) ∈ s.reg := dictGet_mem hk
        have hkd := h4 _ hkmem
        have hk0 := hall0 _ hkmem
        have hallod : ∀ e ∈ sa.reg,
            e.2.d2 = 0 ∧ 0 < overdueTime (max s1.lastSeenTs t) e.2 := by
          intro e he
          rw [hareg] at he
          refine ⟨(hall0 e he).2, ?_⟩
          simp only [overdueTime]
          rw [(hall0 e he).1, (h4 e he).1]
          have hdue' := hdue
          rw [hk0.1, hkd.1] at hdue'
          rw [hls1]
          linarith
        have hbroke : (scanLoop (max s1.lastSeenTs t) s1.lastSeenTs cfg.realertInterval
            sa.reg (max s1.lastSeenTs t + cfg.realertInterval)).2.2.2 = false := by
          rw [scanLoop_all_alert hallod]
        rw [if_pos hz, hreg1', scanLoop_append_cont hbroke]
        refine List.mem_append_left _ ?_
        rw [scanLoop_all_alert hallod]
        exact List.mem_map.mpr ⟨(k, d), by rw [hareg]; exact hkmem, rfl⟩
      · -- ordinary scan: the watermark is below the scan time and the break
        -- cannot skip the strictly-overdue entry
        rw [if_neg hz]
        exact scanLoop_mem_batch hw1nn hscan hd2all (dictGet_mem hk1) hd2 hod
    have hcnt : ((checkTimeouts cfg s1 t).2.map BatchItem.value).count k ≤ 1 := by
      rw [hbatch]
      refine le_trans (scanLoop_count _ _ _ _ _ k) ?_
      have hkk : k ∈ s1.reg.map Prod.fst :=
        dictGet_isSome_iff.mp (by rw [hk1]; rfl)
      exact le_of_eq (List.count_eq_one_of_mem hnd1 hkk)
    have hne0 : ((checkTimeouts cfg s1 t).2.map BatchItem.value).count k ≠ 0 := by
      intro h0
      exact List.count_eq_zero.mp h0 (List.mem_map.mpr ⟨_, hmem, rfl⟩)
    have hbne : (checkTimeouts cfg s1 t).2 ≠ [] := by
      intro hnil
      rw [hnil] at hmem
      exact absurd hmem (List.not_mem_nil _)
    rw [if_neg hbne]
    simp only [keyCount, List.flatten_cons, List.flatten_nil, List.append_nil]
    omega

theorem overdue_alerted_once_witness :
    StateInv cfgA (⟨[("A", ⟨0, 100, 0, "p"⟩)], 0, 0, true, none, none⟩ : DState) ∧
    keyCount [[(⟨"p", "A", 101, 100⟩ : BatchItem)]] "A" = 1 := by
  have hinv : StateInv cfgA (⟨[("A", ⟨0, 100, 0, "p"⟩)], 0, 0, true, none, none⟩ : DState) := by
    unfold StateInv
    decide
  refine ⟨hinv, ?_⟩
  have hrun : receiveAtom cfgA
      (⟨[("A", ⟨0, 100, 0, "p"⟩)], 0, 0, true, none, none⟩ : DState) (recA "B") (some 201) 0 =
      .ok (⟨[("A", ⟨0, 100, 1201, "p"⟩), ("B", ⟨201, 100, 0, "p"⟩)], 301, 201, true, none,
        none⟩, true, [[⟨"p", "A", 101, 100⟩]]) := rfl
  exact overdue_alerted_once cfgA
    (⟨[("A", ⟨0, 100, 0, "p"⟩)], 0, 0, true, none, none⟩ : DState) (recA "B") (some 201) 0
    (by decide) hinv (by decide) (k := "A") (d := ⟨0, 100, 0, "p"⟩) rfl rfl (by decide)
    rfl (by decide) hrun
